import Mathlib

/-!
# Verification of the AceBase secondary-index subsystem (shallow embedding)

This file embeds, in Lean 4, the parts of the AceBase secondary-indexing code
that the specification's claims are about:

* the record-pointer codec (`_createRecordPointer` / `_parseRecordPointer`
  in `src/data-index.js`),
* the Stage B batch grouping of the external merge-sort build pipeline
  (`nextBatch` / `nextEntry` in `DataIndex.build`),
* the Stage A per-level batch size (`nrOfWildcards` / `maxBatchSize`),
* the index-file header writer (`DataIndex._writeIndexHeader`),
* the per-index reader/writer lock queue (`DataIndex._lock`),
* the `ArrayIndex` / `GeoIndex` / `FullTextIndex` query front-ends,
* the in-memory B+ tree leaf insertion (`BPlusTreeLeaf.add`) and the
  bottom-up bulk builder (`BPlusTreeBuilder.create`).

JavaScript strings appearing as raw byte material (record pointers, header
names) are modelled as lists of character codes (`List Nat`); JavaScript
numbers that hold small nonnegative integers are modelled as `Nat`; `NaN`
propagation (needed for the `parseInt` radix analysis of the fulltext phrase
check) is modelled with `Option Int`, `none` standing for `NaN`.
-/

namespace AceBase

/-! ## Record-pointer codec (`src/data-index.js` lines 19-99)

A "string" here is its list of UTF-16 char codes, which for the ASCII
wildcards and keys the claim speaks about is the list of ASCII codes.
`_createRecordPointer` pushes raw JS numbers into an array, so no byte
truncation happens in the in-memory round trip. -/

/-- Embeds `_createRecordPointer(wildcards, key)`: `wildcards_length`,
then for each wildcard its length and char codes, then `key_length` and
the key's char codes. -/
def _createRecordPointer (wildcards : List (List Nat)) (key : List Nat) : List Nat :=
  [wildcards.length]
    ++ (wildcards.map (fun w => w.length :: w)).flatten
    ++ key.length :: key

/-- Reads `count` length-prefixed wildcard strings starting at the head of
`rp`, returning the wildcards and the rest of the byte list (the running
`index` of the source is the amount consumed). -/
def parseWildcards : Nat → List Nat → (List (List Nat) × List Nat)
  | 0, rp => ([], rp)
  | n + 1, rp =>
    let len := rp.headD 0
    let w := (rp.drop 1).take len
    let (ws, rest) := parseWildcards n (rp.drop (len + 1))
    (w :: ws, rest)

/-- The `path.replace(/\*/g, () => wildcards[i++])` step: each `*`
(char code 42) is replaced in order by the next wildcard binding.
JS yields the string `"undefined"` when the bindings run out; the claim's
hypotheses rule that out, but the model keeps the JS behaviour. -/
def replaceStars : List Nat → List (List Nat) → List Nat
  | [], _ => []
  | c :: cs, ws =>
    if c = 42 then
      (ws.headD [117, 110, 100, 101, 102, 105, 110, 101, 100]) ++ replaceStars cs (ws.drop 1)
    else
      c :: replaceStars cs ws

/-- Embeds `_parseRecordPointer(path, recordPointer)`: reads the wildcards
and key back, substitutes the wildcards into the path's `*` positions, and
returns `{ key, path: path + "/" + key, wildcards }` (47 = `/`). -/
def _parseRecordPointer (path : List Nat) (rp : List Nat) :
    (List Nat × List Nat × List (List Nat)) :=
  let wildcardsLength := rp.headD 0
  let (wildcards, rest) := parseWildcards wildcardsLength (rp.drop 1)
  let keyLength := rest.headD 0
  let key := (rest.drop 1).take keyLength
  let path' := if wildcards.length > 0 then replaceStars path wildcards else path
  (key, path' ++ 47 :: key, wildcards)

/-- Spec-side substitution, following the spec's words: "the original index
path with `*` replaced by wildcard bindings in order". A `*` with no
remaining binding is left in place (the claims' hypotheses exclude this). -/
def specSubstStars : List Nat → List (List Nat) → List Nat
  | [], _ => []
  | c :: cs, ws =>
    if c = 42 then
      match ws with
      | w :: ws' => w ++ specSubstStars cs ws'
      | [] => c :: specSubstStars cs []
    else c :: specSubstStars cs ws

theorem parseWildcards_roundtrip (ws : List (List Nat)) (t : List Nat) :
    parseWildcards ws.length ((ws.map (fun w => w.length :: w)).flatten ++ t) = (ws, t) := by
  induction ws with
  | nil => simp [parseWildcards]
  | cons w ws ih =>
    simp only [List.map_cons, List.flatten_cons, List.length_cons, parseWildcards,
      List.cons_append, List.headD_cons, List.drop_succ_cons, List.drop_zero]
    rw [List.append_assoc, List.take_left, List.drop_left, ih]

theorem replaceStars_eq_spec (path : List Nat) (ws : List (List Nat))
    (h : path.count 42 = ws.length) : replaceStars path ws = specSubstStars path ws := by
  induction path generalizing ws with
  | nil =>
    have : ws = [] := by
      simpa using (List.length_eq_zero.mp h.symm)
    simp [this, replaceStars, specSubstStars]
  | cons c cs ih =>
    by_cases hc : c = 42
    · subst hc
      rw [List.count_cons_self] at h
      match ws with
      | [] => simp at h
      | w :: ws' =>
        simp only [List.length_cons] at h
        simp only [replaceStars, if_pos rfl, List.headD_cons, List.drop_succ_cons,
          List.drop_zero, specSubstStars]
        simp only [if_true]
        rw [ih ws' (by omega)]
    · rw [List.count_cons_of_ne (fun hne => hc hne.symm)] at h
      simp only [replaceStars, specSubstStars, if_neg hc]
      rw [ih ws h]

theorem specSubstStars_nil (path : List Nat) (h : path.count 42 = 0) :
    specSubstStars path [] = path := by
  induction path with
  | nil => rfl
  | cons c cs ih =>
    by_cases hc : c = 42
    · subst hc; simp [List.count_cons_self] at h
    · rw [List.count_cons_of_ne (fun hne => hc hne.symm)] at h
      simp only [specSubstStars, if_neg hc, ih h]

/-- C3. Record-pointer codec round-trip: for wildcard bindings and a child
key (ASCII, each at most 255 chars), parsing the bytes produced by
`_createRecordPointer` against an index path with one `*` per wildcard
yields the same key, the same wildcard list, and the index path with each
`*` substituted by the corresponding binding in order, followed by `/key`. -/
theorem recordPointer_roundtrip (path key : List Nat) (ws : List (List Nat))
    (hkl : key.length ≤ 255) (hka : ∀ c ∈ key, c < 128)
    (hwl : ∀ w ∈ ws, w.length ≤ 255) (hwa : ∀ w ∈ ws, ∀ c ∈ w, c < 128)
    (hstars : path.count 42 = ws.length) :
    _parseRecordPointer path (_createRecordPointer ws key) =
      (key, specSubstStars path ws ++ 47 :: key, ws) := by
  unfold _parseRecordPointer _createRecordPointer
  simp only [List.cons_append, List.nil_append, List.headD_cons, List.drop_succ_cons,
    List.drop_zero]
  rw [parseWildcards_roundtrip ws (key.length :: key)]
  simp only [List.headD_cons, List.drop_succ_cons, List.drop_zero, List.take_length]
  cases ws with
  | nil =>
    simp only [List.length_nil, gt_iff_lt, Nat.lt_irrefl, if_false]
    rw [specSubstStars_nil path hstars]
  | cons w ws' =>
    simp only [List.length_cons, gt_iff_lt, Nat.succ_pos, if_true]
    rw [replaceStars_eq_spec path (w :: ws') hstars]

/-- Witness for C3 at index path `users/*/posts`, wildcard binding `u1`,
key `p1`: the parsed absolute path is `users/u1/posts/p1`. -/
theorem recordPointer_roundtrip_witness :
    _parseRecordPointer [117, 115, 101, 114, 115, 47, 42, 47, 112, 111, 115, 116, 115]
        (_createRecordPointer [[117, 49]] [112, 49]) =
      ([112, 49],
        specSubstStars [117, 115, 101, 114, 115, 47, 42, 47, 112, 111, 115, 116, 115] [[117, 49]]
          ++ 47 :: [112, 49], [[117, 49]]) :=
  recordPointer_roundtrip _ _ _ (by decide) (by decide) (by decide) (by decide) (by decide)

/-! ## Stage A batch size (`src/data-index.js` lines 1035-1036 and 1151)

`DataIndex.build` computes
`const nrOfWildcards = hasWildcards ? /\*/g.exec(this.path).length : 0;`
and later `const maxBatchSize = Math.round(Math.pow(500, Math.pow(0.5, nrOfWildcards)))`.
In JavaScript, `RegExp.exec` returns the *first match* as an array whose
length is 1 + the number of capture groups; `/\*/g` has no capture groups,
so the array's length is 1 whenever the path contains any `*` at all —
it is not the number of wildcards. -/

/-- Embeds `path.indexOf('*') >= 0` (line 1035). -/
def hasWildcards (path : List Nat) : Bool := path.contains 42

/-- Embeds `hasWildcards ? /\*/g.exec(this.path).length : 0` (line 1036):
the `exec` match array has length 1 for any path containing a `*`. -/
def nrOfWildcards (path : List Nat) : Nat := if hasWildcards path then 1 else 0

/-- The number of `*` wildcards in the index path — what the code's own
comment (lines 1142-1150) and the spec say the batch size is derived from. -/
def countWildcards (path : List Nat) : Nat := path.count 42

/-- Embeds `Math.round(Math.pow(500, Math.pow(0.5, n)))` (line 1151) over
the reals (`round` is half-up, like JS `Math.round`). -/
noncomputable def maxBatchSize (n : Nat) : ℤ :=
  round ((500 : ℝ) ^ ((1 / 2 : ℝ) ^ n))

theorem maxBatchSize_one : maxBatchSize 1 = 22 := by
  unfold maxBatchSize
  set x : ℝ := (500 : ℝ) ^ ((1 / 2 : ℝ) ^ 1) with hx
  have hxnn : 0 ≤ x := Real.rpow_nonneg (by norm_num) _
  have hsq : x ^ (2 : ℕ) = 500 := by
    rw [hx, ← Real.rpow_natCast ((500 : ℝ) ^ ((1 / 2 : ℝ) ^ 1)) 2,
      ← Real.rpow_mul (by norm_num)]
    norm_num
  have h1 : (21.5 : ℝ) ≤ x := by nlinarith [sq_nonneg (x - 21.5), sq_nonneg (x + 21.5)]
  have h2 : x < 22.5 := by nlinarith [sq_nonneg (x - 22.5), sq_nonneg (x + 22.5)]
  rw [round_eq, Int.floor_eq_iff]
  constructor <;> push_cast <;> nlinarith

theorem maxBatchSize_two : maxBatchSize 2 = 5 := by
  unfold maxBatchSize
  set x : ℝ := (500 : ℝ) ^ ((1 / 2 : ℝ) ^ 2) with hx
  have hxnn : 0 ≤ x := Real.rpow_nonneg (by norm_num) _
  have hsq : x ^ (4 : ℕ) = 500 := by
    rw [hx, ← Real.rpow_natCast ((500 : ℝ) ^ ((1 / 2 : ℝ) ^ 2)) 4,
      ← Real.rpow_mul (by norm_num)]
    norm_num
  have h1 : (4.5 : ℝ) ≤ x := by
    nlinarith [sq_nonneg (x - 4.5), sq_nonneg (x + 4.5), sq_nonneg (x ^ 2 - 20.25), sq_nonneg x]
  have h2 : x < 5.5 := by
    nlinarith [sq_nonneg (x - 5.5), sq_nonneg (x + 5.5), sq_nonneg (x ^ 2 - 30.25), sq_nonneg x]
  rw [round_eq, Int.floor_eq_iff]
  constructor <;> push_cast <;> nlinarith

/-- C5. The claim says the per-level batch size is `round(500 ^ (0.5 ^ w))`
with `w` the number of `*` wildcards in the index path (so a 2-wildcard
path gets batches of 5). The code computes `nrOfWildcards` as the length
of a regex `exec` match array, which is 1 for any path containing a `*`:
for the 2-wildcard path `a/*/b/*/c` the code uses batch size 22 where the
claim (and the code's own comment) require 5. -/
theorem maxBatchSize_wildcard_count_bug :
    countWildcards [97, 47, 42, 47, 98, 47, 42, 47, 99] = 2 ∧
    nrOfWildcards [97, 47, 42, 47, 98, 47, 42, 47, 99] = 1 ∧
    maxBatchSize (nrOfWildcards [97, 47, 42, 47, 98, 47, 42, 47, 99]) = 22 ∧
    maxBatchSize (countWildcards [97, 47, 42, 47, 98, 47, 42, 47, 99]) = 5 := by
  have hc : countWildcards [97, 47, 42, 47, 98, 47, 42, 47, 99] = 2 := by decide
  have hn : nrOfWildcards [97, 47, 42, 47, 98, 47, 42, 47, 99] = 1 := by decide
  exact ⟨hc, hn, by rw [hn]; exact maxBatchSize_one, by rw [hc]; exact maxBatchSize_two⟩

/-! ## Per-index lock queue (`src/data-index.js` lines 610-667)

`DataIndex._lock` keeps a FIFO `_lockQueue` of pending requests. The
`release` closure walks the queue from the head: a writer at the head is
granted alone; readers are granted together until the first writer, which
is left in the queue. -/

/-- A pending lock request: `forWriting` plus an identifier standing for
the request's resolve callback/comment. -/
structure LockRequest where
  forWriting : Bool
  id : Nat
  deriving DecidableEq, Repr

/-- Embeds the `while (true)` loop of `release` (lines 621-636): `pending`
accumulates the granted requests, and the function returns the granted
requests together with the remaining queue. -/
def releaseLoop : List LockRequest → List LockRequest → (List LockRequest × List LockRequest)
  | pending, [] => (pending, [])
  | pending, next :: rest =>
    if next.forWriting then
      if pending.length = 0 then (pending ++ [next], rest)
      else (pending, next :: rest)
    else releaseLoop (pending ++ [next]) rest

/-- `release` starts the loop with an empty `pending` list. -/
def release (queue : List LockRequest) : List LockRequest × List LockRequest :=
  releaseLoop [] queue

theorem releaseLoop_nonempty_pending (queue pending : List LockRequest)
    (hp : pending ≠ []) :
    releaseLoop pending queue =
      (pending ++ queue.takeWhile (fun l => !l.forWriting),
        queue.dropWhile (fun l => !l.forWriting)) := by
  induction queue generalizing pending with
  | nil => simp [releaseLoop]
  | cons next rest ih =>
    by_cases hw : next.forWriting
    · have hlen : ¬(pending.length = 0) := by simpa [List.length_eq_zero] using hp
      simp [releaseLoop, hw, hlen, List.takeWhile_cons, List.dropWhile_cons]
    · simp only [releaseLoop, hw, if_false]
      rw [ih (pending ++ [next]) (by simp)]
      simp [List.takeWhile_cons, List.dropWhile_cons, hw]

/-- C8. Releasing the held lock wakes pending requests as follows: with an
empty queue nothing is granted; if the head of the FIFO queue is a writer,
exactly that writer is granted and the rest of the queue is untouched; if
the head is a reader, exactly the maximal prefix of consecutive readers is
granted together (so a writer is never granted simultaneously with any
other request). -/
theorem release_wakes_head :
    ∀ queue : List LockRequest,
      release queue =
        match queue with
        | [] => ([], [])
        | next :: rest =>
          if next.forWriting then ([next], rest)
          else (queue.takeWhile (fun l => !l.forWriting),
            queue.dropWhile (fun l => !l.forWriting)) := by
  intro queue
  match queue with
  | [] => rfl
  | next :: rest =>
    by_cases hw : next.forWriting
    · simp [release, releaseLoop, hw]
    · have hw' : next.forWriting = false := by simpa using hw
      simp only [release, releaseLoop, hw', Bool.false_eq_true, if_false, List.nil_append]
      rw [releaseLoop_nonempty_pending rest [next] (by simp)]
      simp [List.takeWhile_cons, List.dropWhile_cons, hw']

/-! ## Query front-ends (`src/data-index.js` lines 759-1026, 2770-2790, 3461-3493)

`DataIndex.query(op, val, options)` validates the operator, performs the
tree search, and — only when `options.filter` is given — intersects the
results with the filter set by record pointer. The tree search itself
(`BinaryBPlusTree.search`, plus locking, caching and case-folding) is
abstracted as a function `search`; the record-pointer projection used by
the filter intersection is abstracted as `rp`. `ArrayIndex.query(op, val)`
and `GeoIndex.query(op, val)` are declared *without* an options parameter,
so a caller-supplied options argument is discarded by the JS call and the
base query runs with its default `options = { filter: undefined }`. -/

/-- The options object of `DataIndex.query` (line 774): only the `filter`
member is consulted. -/
structure QueryOptions (β : Type) where
  filter : Option (List β) := none

/-- `DataIndex.validOperators` (line 760). -/
def DataIndex.validOperators : List String :=
  ["<", "<=", "==", "!=", ">=", ">", "exists", "!exists", "between", "!between",
    "like", "!like", "matches", "!matches", "in", "!in"]

/-- Embeds `DataIndex.query(op, val, options)` (lines 774-1026) with the
tree search abstracted: an unsupported operator throws a `TypeError`;
otherwise the tree search runs and `options.filter`, when present,
restricts the results to those whose record pointer occurs in the filter
set. -/
def DataIndex.query {α β : Type} (search : String → α → List β) (rp : β → List Nat)
    (op : String) (val : α) (options : QueryOptions β) : Except String (List β) :=
  if DataIndex.validOperators.contains op = false then
    .error ("Cannot use operator " ++ op ++ " to query index")
  else
    let entries := search op val
    match options.filter with
    | some filterValues =>
      .ok (entries.filter (fun e => filterValues.any (fun f => rp f = rp e)))
    | none => .ok entries

/-- `ArrayIndex.validOperators` (lines 2770-2772). -/
def ArrayIndex.validOperators : List String := ["contains", "!contains"]

/-- Embeds `ArrayIndex.query(op, val)` (lines 2777-2789). The JS method
takes no options parameter, so `callerOptions` (what a caller may pass as
third argument) is discarded; `super.query(searchOp, val)` runs with the
base default options. By the guard, `searchOp` is `==` for `contains`
and `!=` for `!contains`. -/
def ArrayIndex.query {α β : Type} (search : String → α → List β) (rp : β → List Nat)
    (op : String) (val : α) (callerOptions : QueryOptions β) : Except String (List β) :=
  if ArrayIndex.validOperators.contains op = false then
    .error "Array indexes can only be queried with operator contains and !contains"
  else
    let searchOp := if op = "contains" then "==" else "!="
    DataIndex.query search rp searchOp val {}

/-- `GeoIndex.validOperators` (lines 3461-3463). -/
def GeoIndex.validOperators : List String := ["geo:nearby"]

/-- The `geo:nearby` query value: `.lat`, `.long`, `.radius` must all be
numbers (`none` models a missing / non-number member). -/
structure GeoNearbyVal where
  lat : Option Int
  long : Option Int
  radius : Option Int

/-- `Promise.all` over per-hash query promises followed by pushing every
match of every result set (lines 3482-3491). -/
def collectResultSets {β : Type} : List (Except String (List β)) → Except String (List β)
  | [] => .ok []
  | .error e :: _ => .error e
  | .ok s :: rest =>
    match collectResultSets rest with
    | .error e => .error e
    | .ok acc => .ok (s ++ acc)

/-- Embeds `GeoIndex.query(op, val)` (lines 3469-3493). The geohash cover
of the radius disk (`_getGeoRadiusPrecision` / `_hashesInRadius`, floating
point geometry over the external `Geohash` module) is abstracted as
`hashesInRadius`; each hash is queried through the base class as
`super.query('like', hash + "*")`. The JS method takes no options
parameter, so `callerOptions` is discarded. -/
def GeoIndex.query {β : Type} (search : String → String → List β) (rp : β → List Nat)
    (hashesInRadius : GeoNearbyVal → List String)
    (op : String) (val : GeoNearbyVal) (callerOptions : QueryOptions β) :
    Except String (List β) :=
  if GeoIndex.validOperators.contains op = false then
    .error ("Geo indexes can not be queried with operator " ++ op)
  else if op = "geo:nearby" then
    if val.lat = none ∨ val.long = none ∨ val.radius = none then
      .error "geo:nearby query must supply an object with properties .lat, .long and .radius"
    else
      let targetHashes := hashesInRadius val
      collectResultSets
        (targetHashes.map (fun hash => DataIndex.query search rp "like" (hash ++ "*") {}))
  else
    .ok []

/-- C9. `ArrayIndex.query` with `contains` performs exactly the underlying
tree search with operator `==`, with `!contains` exactly the search with
`!=`, and with any other operator it throws before performing any tree
search (the outcome does not depend on the search function at all). -/
theorem arrayIndex_query_translates {α β : Type} (search : String → α → List β)
    (rp : β → List Nat) (val : α) (opts : QueryOptions β) :
    ArrayIndex.query search rp "contains" val opts = .ok (search "==" val) ∧
    ArrayIndex.query search rp "!contains" val opts = .ok (search "!=" val) ∧
    ∀ op, ArrayIndex.validOperators.contains op = false →
      ArrayIndex.query search rp op val opts =
          .error "Array indexes can only be queried with operator contains and !contains" ∧
        ∀ search' : String → α → List β,
          ArrayIndex.query search rp op val opts = ArrayIndex.query search' rp op val opts := by
  refine ⟨rfl, rfl, fun op hop => ⟨?_, fun search' => ?_⟩⟩ <;>
    · unfold ArrayIndex.query
      rw [hop]
      rfl

/-- Witness for C9: concrete search function, values, and the unsupported
operator `>`, which is rejected. -/
theorem arrayIndex_query_translates_witness :
    ArrayIndex.query (fun op (_ : Int) => [(op, (0 : Int))]) (fun _ => []) "contains" (0 : Int) {} =
        .ok [("==", (0 : Int))] ∧
      ArrayIndex.query (fun op (_ : Int) => [(op, (0 : Int))]) (fun _ => []) ">" (0 : Int) {} =
        .error "Array indexes can only be queried with operator contains and !contains" := by
  have h := arrayIndex_query_translates (fun op (_ : Int) => [(op, (0 : Int))])
    (fun _ => []) (0 : Int) {}
  exact ⟨h.1, (h.2.2 ">" (by decide)).1⟩

/-- C10. For the array and geo specializations the query result is
independent of any options argument passed by the caller: both methods
are declared without an options parameter and delegate to the base query
with its defaults, so a caller-supplied filter set is never applied. -/
theorem specialized_query_ignores_options {α β : Type} (search : String → α → List β)
    (searchStr : String → String → List β) (rp : β → List Nat)
    (hashesInRadius : GeoNearbyVal → List String)
    (op : String) (val : α) (geoVal : GeoNearbyVal) (f : List β) :
    ArrayIndex.query search rp op val { filter := some f } =
        ArrayIndex.query search rp op val {} ∧
      GeoIndex.query searchStr rp hashesInRadius "geo:nearby" geoVal { filter := some f } =
        GeoIndex.query searchStr rp hashesInRadius "geo:nearby" geoVal {} :=
  ⟨rfl, rfl⟩

/-! ## Stage B batch grouping (`src/data-index.js` lines 1697-1755)

`createMergeFile`'s `nextBatch` reads unprocessed records from the build
file one by one (`nextEntry` / `readNext`) and groups them into the
in-memory `map : Map key → values[]`. A record whose key is already in the
map is merged and flagged; a record with a new key is added and flagged
while `processedValues < maxValues`, otherwise it becomes the start of the
next batch. The JS `Map` is modelled as an association list in insertion
order. -/

/-- `map.get(key)` on the insertion-ordered association list. -/
def mapGet {K V : Type} [DecidableEq K] : List (K × List V) → K → Option (List V)
  | [], _ => none
  | (k', vs) :: rest, k => if k' = k then some vs else mapGet rest k

/-- `map.get(next.key).push(next.value)`: append one value to the entry of
an existing key. -/
def mapAppendVal {K V : Type} [DecidableEq K] :
    List (K × List V) → K → V → List (K × List V)
  | [], _, _ => []
  | (k', vs) :: rest, k, v =>
    if k' = k then (k', vs ++ [v]) :: rest else (k', vs) :: mapAppendVal rest k v

/-- Embeds the `nextEntry` recursion of `nextBatch` (lines 1703-1738).
State: remaining unprocessed records, `processedValues`, the in-memory
`map`, and the accumulated list of records flagged processed. Returns
`(map, flagged, deferred)` where `deferred` is the tail of the build file
left for the next batch (its head, when present, is the record stored in
`nextBatchStartEntry`). -/
def nextBatchLoop {K V : Type} [DecidableEq K] (maxV : Nat) :
    List (K × V) → Nat → List (K × List V) → List (K × V) →
    (List (K × List V) × List (K × V) × List (K × V))
  | [], _, m, fl => (m, fl, [])
  | (k, v) :: rest, n, m, fl =>
    match mapGet m k with
    | some _ => nextBatchLoop maxV rest (n + 1) (mapAppendVal m k v) (fl ++ [(k, v)])
    | none =>
      if n + 1 < maxV then
        nextBatchLoop maxV rest (n + 1) (m ++ [(k, [v])]) (fl ++ [(k, v)])
      else (m, fl, (k, v) :: rest)

/-- `const maxValues = 100000` (line 1437). -/
def maxValues : Nat := 100000

/-- One batch, started with an empty map and `processedValues = 0`. -/
def nextBatch {K V : Type} [DecidableEq K] (records : List (K × V)) :
    (List (K × List V) × List (K × V) × List (K × V)) :=
  nextBatchLoop maxValues records 0 [] []

theorem mapGet_append {K V : Type} [DecidableEq K] (a b : List (K × List V)) (k : K) :
    mapGet (a ++ b) k =
      match mapGet a k with
      | some vs => some vs
      | none => mapGet b k := by
  induction a with
  | nil => simp [mapGet]
  | cons e rest ih =>
    obtain ⟨k', vs⟩ := e
    by_cases h : k' = k <;> simp [mapGet, h, ih]

theorem mapGet_mapAppendVal_self {K V : Type} [DecidableEq K]
    (m : List (K × List V)) (k : K) (v : V) (vs : List V) (h : mapGet m k = some vs) :
    mapGet (mapAppendVal m k v) k = some (vs ++ [v]) := by
  induction m with
  | nil => simp [mapGet] at h
  | cons e rest ih =>
    obtain ⟨k', vs'⟩ := e
    by_cases hk : k' = k
    · subst hk
      simp [mapGet, mapAppendVal] at h ⊢
      simp [h]
    · simp [mapGet, mapAppendVal, hk] at h ⊢
      exact ih h

theorem mapGet_mapAppendVal_other {K V : Type} [DecidableEq K]
    (m : List (K × List V)) (k k' : K) (v : V) (h : k ≠ k') :
    mapGet (mapAppendVal m k v) k' = mapGet m k' := by
  induction m with
  | nil => simp [mapAppendVal]
  | cons e rest ih =>
    obtain ⟨k'', vs⟩ := e
    by_cases hk : k'' = k
    · subst hk
      simp [mapGet, mapAppendVal, h, ih]
    · simp [mapGet, mapAppendVal, hk, ih]

theorem nextBatchLoop_spec {K V : Type} [DecidableEq K] (maxV : Nat)
    (records : List (K × V)) :
    ∀ (n : Nat) (m : List (K × List V)) (fl : List (K × V)),
    ∃ pre rest map,
      nextBatchLoop maxV records n m fl = (map, fl ++ pre, rest) ∧
      records = pre ++ rest ∧
      (∀ k, mapGet map k =
        match (pre.filter (fun e => e.1 = k)).map Prod.snd with
        | [] => mapGet m k
        | l => some ((mapGet m k).getD [] ++ l)) ∧
      (rest = [] ∨ ∃ k v t, rest = (k, v) :: t ∧ mapGet map k = none ∧
        maxV ≤ n + pre.length + 1) := by
  induction records with
  | nil =>
    intro n m fl
    exact ⟨[], [], m, by simp [nextBatchLoop], by simp, fun k => by simp, Or.inl rfl⟩
  | cons e recs ih =>
    intro n m fl
    obtain ⟨k, v⟩ := e
    cases hget : mapGet m k with
    | some vs =>
      obtain ⟨pre', rest', map', heq, hsplit, hmap, hdefer⟩ :=
        ih (n + 1) (mapAppendVal m k v) (fl ++ [(k, v)])
      refine ⟨(k, v) :: pre', rest', map', ?_, ?_, ?_, ?_⟩
      · simp only [nextBatchLoop, hget]
        rw [heq]
        simp
      · simp [hsplit]
      · intro k'
        rw [hmap k']
        by_cases hk : k' = k
        · subst hk
          have hfc : (((k', v) :: pre').filter (fun e => e.1 = k')).map Prod.snd
              = v :: (pre'.filter (fun e => e.1 = k')).map Prod.snd := by simp
          rw [hfc, mapGet_mapAppendVal_self m k' v vs hget, hget]
          cases hl : (pre'.filter (fun e => e.1 = k')).map Prod.snd with
          | nil => simp
          | cons x xs => simp
        · have hk' : k ≠ k' := fun h => hk h.symm
          have hfc : (((k, v) :: pre').filter (fun e => e.1 = k')).map Prod.snd
              = (pre'.filter (fun e => e.1 = k')).map Prod.snd := by simp [hk']
          rw [hfc, mapGet_mapAppendVal_other m k k' v hk']
      · rcases hdefer with h | ⟨k', v', t, hrest, hnone, hle⟩
        · exact Or.inl h
        · exact Or.inr ⟨k', v', t, hrest, hnone, by simpa [Nat.add_comm, Nat.add_assoc,
            Nat.add_left_comm] using hle⟩
    | none =>
      by_cases hcap : n + 1 < maxV
      · obtain ⟨pre', rest', map', heq, hsplit, hmap, hdefer⟩ :=
          ih (n + 1) (m ++ [(k, [v])]) (fl ++ [(k, v)])
        refine ⟨(k, v) :: pre', rest', map', ?_, ?_, ?_, ?_⟩
        · simp only [nextBatchLoop, hget, if_pos hcap]
          rw [heq]
          simp
        · simp [hsplit]
        · intro k'
          rw [hmap k']
          by_cases hk : k' = k
          · subst hk
            have hfc : (((k', v) :: pre').filter (fun e => e.1 = k')).map Prod.snd
                = v :: (pre'.filter (fun e => e.1 = k')).map Prod.snd := by simp
            have hnew : mapGet (m ++ [(k', [v])]) k' = some [v] := by
              rw [mapGet_append, hget]
              simp [mapGet]
            rw [hfc, hnew, hget]
            cases hl : (pre'.filter (fun e => e.1 = k')).map Prod.snd with
            | nil => simp
            | cons x xs => simp
          · have hk' : k ≠ k' := fun h => hk h.symm
            have hfc : (((k, v) :: pre').filter (fun e => e.1 = k')).map Prod.snd
                = (pre'.filter (fun e => e.1 = k')).map Prod.snd := by simp [hk']
            have hother : mapGet (m ++ [(k, [v])]) k' = mapGet m k' := by
              rw [mapGet_append]
              cases mapGet m k' <;> simp [mapGet, hk']
            rw [hfc, hother]
        · rcases hdefer with h | ⟨k', v', t, hrest, hnone, hle⟩
          · exact Or.inl h
          · exact Or.inr ⟨k', v', t, hrest, hnone, by simpa [Nat.add_comm, Nat.add_assoc,
              Nat.add_left_comm] using hle⟩
      · refine ⟨[], (k, v) :: recs, m, ?_, by simp, fun k' => by simp, ?_⟩
        · simp only [nextBatchLoop, hget, if_neg hcap]
          simp
        · exact Or.inr ⟨k, v, recs, rfl, hget, by omega⟩

/-- C4. Stage B grouping: running one batch over the unprocessed records
of the build file yields a processed-and-flagged prefix `pre` and a
deferred suffix `rest` with (a) every record of `pre` flagged processed,
(b) the in-memory map holding, for each key, exactly the values of all of
that key's records in `pre` (so records whose key is already in the map
are always merged into its value list, regardless of the
`maxValues = 100000` cap, and all values of one key in the batch's scan
end up in the same run-file entry), and (c) a record is deferred only if
its key is not in the map and the batch has reached the cap. -/
theorem stageB_batch_grouping {K V : Type} [DecidableEq K] (records : List (K × V)) :
    ∃ pre rest map,
      nextBatch records = (map, pre, rest) ∧
      records = pre ++ rest ∧
      (∀ k, mapGet map k =
        match (pre.filter (fun e => e.1 = k)).map Prod.snd with
        | [] => none
        | l => some l) ∧
      (rest = [] ∨ ∃ k v t, rest = (k, v) :: t ∧ mapGet map k = none ∧
        maxValues ≤ pre.length + 1) := by
  obtain ⟨pre, rest, map, heq, hsplit, hmap, hdefer⟩ :=
    nextBatchLoop_spec maxValues records 0 [] []
  refine ⟨pre, rest, map, by simpa using heq, hsplit, ?_, by simpa using hdefer⟩
  intro k
  rw [hmap k]
  cases hl : (pre.filter (fun e => e.1 = k)).map Prod.snd with
  | nil => simp [mapGet]
  | cons x xs => simp [mapGet]

/-! ## Index header (`src/data-index.js` lines 2115-2293)

`_writeIndexHeader` builds the header byte array: the 10-byte signature,
the layout version byte `1`, a 4-byte big-endian `header_length`
placeholder, the `indexInfo` typed map, `trees_count = 1`, the tree name
`default`, placeholders for `file_index` and `byte_length`, the tree's
typed map, then zero padding to the 4096-byte block size; finally
`header_length` (offset 11) and the default tree's `file_index`
(offset `treeRefIndex`) are patched with the total header length.
`numberToBytes` comes from the external `acebase-core` package and is
abstracted as `nb`. The claims hold for every such `nb`. -/

/-- A value accepted by `addValueBytes` (lines 2127-2178). -/
inductive JsVal where
  | undef
  | str (s : List Nat)
  | num (n : Int)
  | bool (b : Bool)
  | arr (vs : List JsVal)

/-- `(len >> 8) & 0xff, len & 0xff`: the 2-byte big-endian length used by
`addValueBytes`. (The source throws for arrays above `0xffff` entries;
the byte pair below is what it writes otherwise.) -/
def lenBytes2 (n : Nat) : List Nat := [(n >>> 8) % 256, n % 256]

mutual

/-- The bytes pushed by `addValueBytes(bytes, value)`: a type tag, then for
strings/numbers/arrays a 2-byte length, then the payload (strings are
ASCII here, so `textEncoder.encode` is the identity on char codes). -/
def addValueBytes (nb : Int → List Nat) : JsVal → List Nat
  | .undef => [0]
  | .str s => 1 :: (lenBytes2 s.length ++ s)
  | .num n => 2 :: (lenBytes2 (nb n).length ++ nb n)
  | .bool b => [3, if b then 1 else 0]
  | .arr vs => 4 :: (lenBytes2 vs.length ++ addValuesBytes nb vs)

/-- `value.forEach(val => addValueBytes(bytes, val))`. -/
def addValuesBytes (nb : Int → List Nat) : List JsVal → List Nat
  | [] => []
  | v :: vs => addValueBytes nb v ++ addValuesBytes nb vs

end

/-- The bytes pushed by `addNameBytes(bytes, name)`: `name_length`, then
the name's char codes. -/
def addNameBytes (name : List Nat) : List Nat := name.length :: name

/-- The bytes pushed by `addInfoBytes(bytes, obj)`: `info_count`, then for
each key its name bytes and value bytes. -/
def addInfoBytes (nb : Int → List Nat) (obj : List (List Nat × JsVal)) : List Nat :=
  obj.length :: (obj.map (fun e => addNameBytes e.1 ++ addValueBytes nb e.2)).flatten

/-- `const DISK_BLOCK_SIZE = 4096` (line 16). -/
def DISK_BLOCK_SIZE : Nat := 4096

/-- Patch a 4-byte big-endian value at offset `i` (lines 2258-2267). -/
def setUint32BE (l : List Nat) (i : Nat) (n : Nat) : List Nat :=
  ((((l.set i ((n >>> 24) % 256)).set (i + 1) ((n >>> 16) % 256)).set
    (i + 2) ((n >>> 8) % 256)).set (i + 3) (n % 256))

/-- Read a 4-byte big-endian value at offset `i`. -/
def readUint32BE (l : List Nat) (i : Nat) : Nat :=
  (l.getD i 0) * 2 ^ 24 + (l.getD (i + 1) 0) * 2 ^ 16 + (l.getD (i + 2) 0) * 2 ^ 8
    + l.getD (i + 3) 0

/-- The header built by `_writeIndexHeader` together with the
`treeRefIndex` at which the default tree's `file_index` lives. -/
structure IndexHeader where
  header : List Nat
  treeRefIndex : Nat

/-- Embeds `_writeIndexHeader` (lines 2203-2267): signature, layout
version, `header_length` placeholder, `indexInfo` map
`{type, version: 1, path, key, include, cs, locale}`, `trees_count = 1`,
tree name `default`, `file_index`/`byte_length` placeholders, tree info
map `{class, version, entries, values}`, padding to a 4096-byte boundary,
then the `header_length` and `file_index` patches. -/
def _writeIndexHeader (nb : Int → List Nat) (type path key locale : List Nat)
    (includeKeys : List (List Nat)) (cs : Bool) (treeClass : List Nat)
    (treeVersion entries values : Int) : IndexHeader :=
  let indexInfo : List (List Nat × JsVal) :=
    [([116, 121, 112, 101], .str type),
     ([118, 101, 114, 115, 105, 111, 110], .num 1),
     ([112, 97, 116, 104], .str path),
     ([107, 101, 121], .str key),
     ([105, 110, 99, 108, 117, 100, 101], .arr (includeKeys.map .str)),
     ([99, 115], .bool cs),
     ([108, 111, 99, 97, 108, 101], .str locale)]
  let extraTreeInfo : List (List Nat × JsVal) :=
    [([99, 108, 97, 115, 115], .str treeClass),
     ([118, 101, 114, 115, 105, 111, 110], .num treeVersion),
     ([101, 110, 116, 114, 105, 101, 115], .num entries),
     ([118, 97, 108, 117, 101, 115], .num values)]
  let h0 : List Nat :=
    [65, 67, 69, 66, 65, 83, 69, 73, 68, 88, 1, 0, 0, 0, 0]
  let h1 := h0 ++ addInfoBytes nb indexInfo
  let h2 := h1 ++ [1]
  let h3 := h2 ++ addNameBytes [100, 101, 102, 97, 117, 108, 116]
  let treeRefIndex := h3.length
  let h4 := h3 ++ [0, 0, 0, 0, 0, 0, 0, 0]
  let h5 := h4 ++ addInfoBytes nb extraTreeInfo
  let h6 := h5 ++ List.replicate ((DISK_BLOCK_SIZE - h5.length % DISK_BLOCK_SIZE)
    % DISK_BLOCK_SIZE) 0
  let headerLength := h6.length
  let h7 := setUint32BE h6 11 headerLength
  let h8 := setUint32BE h7 treeRefIndex headerLength
  { header := h8, treeRefIndex := treeRefIndex }

theorem length_setUint32BE (l : List Nat) (i n : Nat) :
    (setUint32BE l i n).length = l.length := by
  simp [setUint32BE]

theorem take_set_of_le (l : List Nat) (i m a : Nat) (h : m ≤ i) :
    (l.set i a).take m = l.take m := by
  apply List.ext_getElem
  · simp
  · intro j h1 h2
    simp only [List.getElem_take, List.getElem_set]
    rw [if_neg (by simp at h1; omega)]

theorem take_setUint32BE_of_le (l : List Nat) (i n m : Nat) (h : m ≤ i) :
    (setUint32BE l i n).take m = l.take m := by
  unfold setUint32BE
  rw [take_set_of_le _ _ _ _ (by omega), take_set_of_le _ _ _ _ (by omega),
    take_set_of_le _ _ _ _ (by omega), take_set_of_le _ _ _ _ h]

theorem getD_setUint32BE_ne (l : List Nat) (i n j : Nat) (h : j < i ∨ i + 3 < j) :
    (setUint32BE l i n).getD j 0 = l.getD j 0 := by
  unfold setUint32BE
  simp only [List.getD_eq_getElem?_getD]
  rw [List.getElem?_set_ne (by omega), List.getElem?_set_ne (by omega),
    List.getElem?_set_ne (by omega), List.getElem?_set_ne (by omega)]

theorem readUint32BE_setUint32BE_ne (l : List Nat) (i n j : Nat)
    (h : j + 3 < i ∨ i + 3 < j) :
    readUint32BE (setUint32BE l i n) j = readUint32BE l j := by
  unfold readUint32BE
  rw [getD_setUint32BE_ne _ _ _ _ (by omega), getD_setUint32BE_ne _ _ _ _ (by omega),
    getD_setUint32BE_ne _ _ _ _ (by omega), getD_setUint32BE_ne _ _ _ _ (by omega)]

theorem getD_set_self (l : List Nat) (i a : Nat) (h : i < l.length) :
    (l.set i a).getD i 0 = a := by
  rw [List.getD_eq_getElem?_getD, List.getElem?_set_eq h, Option.getD_some]

theorem getD_set_ne (l : List Nat) (i j a : Nat) (h : i ≠ j) :
    (l.set i a).getD j 0 = l.getD j 0 := by
  rw [List.getD_eq_getElem?_getD, List.getElem?_set_ne h, ← List.getD_eq_getElem?_getD]

theorem readUint32BE_setUint32BE_self (l : List Nat) (i n : Nat)
    (hlen : i + 3 < l.length) (hn : n < 2 ^ 32) :
    readUint32BE (setUint32BE l i n) i = n := by
  have g0 : (setUint32BE l i n).getD i 0 = (n >>> 24) % 256 := by
    unfold setUint32BE
    rw [getD_set_ne _ _ _ _ (by omega), getD_set_ne _ _ _ _ (by omega),
      getD_set_ne _ _ _ _ (by omega), getD_set_self _ _ _ (by omega)]
  have g1 : (setUint32BE l i n).getD (i + 1) 0 = (n >>> 16) % 256 := by
    unfold setUint32BE
    rw [getD_set_ne _ _ _ _ (by omega), getD_set_ne _ _ _ _ (by omega),
      getD_set_self _ _ _ (by simp only [List.length_set]; omega)]
  have g2 : (setUint32BE l i n).getD (i + 2) 0 = (n >>> 8) % 256 := by
    unfold setUint32BE
    rw [getD_set_ne _ _ _ _ (by omega),
      getD_set_self _ _ _ (by simp only [List.length_set]; omega)]
  have g3 : (setUint32BE l i n).getD (i + 3) 0 = n % 256 := by
    unfold setUint32BE
    rw [getD_set_self _ _ _ (by simp only [List.length_set]; omega)]
  unfold readUint32BE
  rw [g0, g1, g2, g3]
  simp only [Nat.shiftRight_eq_div_pow]
  omega

theorem getD_setUint32BE_lt (l : List Nat) (i n j : Nat) (h : j < i) :
    (setUint32BE l i n).getD j 0 = l.getD j 0 :=
  getD_setUint32BE_ne l i n j (Or.inl h)

/-- C7. The header produced by `_writeIndexHeader` begins with the 10
signature bytes `ACEBASEIDX` followed by the layout-version byte 1; its
total length is a multiple of 4096; the 4-byte big-endian `header_length`
at offset 11 equals that total length; and the default tree's
`file_index` field (at `treeRefIndex`) equals the same value, so the tree
region starts exactly at the 4096-aligned end of the header. -/
theorem writeIndexHeader_layout (nb : Int → List Nat) (type path key locale : List Nat)
    (includeKeys : List (List Nat)) (cs : Bool) (treeClass : List Nat)
    (treeVersion entries values : Int)
    (hsize : (_writeIndexHeader nb type path key locale includeKeys cs treeClass
      treeVersion entries values).header.length < 2 ^ 32) :
    (_writeIndexHeader nb type path key locale includeKeys cs treeClass
        treeVersion entries values).header.take 10 =
        [65, 67, 69, 66, 65, 83, 69, 73, 68, 88] ∧
      (_writeIndexHeader nb type path key locale includeKeys cs treeClass
        treeVersion entries values).header.getD 10 0 = 1 ∧
      (_writeIndexHeader nb type path key locale includeKeys cs treeClass
        treeVersion entries values).header.length % 4096 = 0 ∧
      readUint32BE (_writeIndexHeader nb type path key locale includeKeys cs treeClass
          treeVersion entries values).header 11 =
        (_writeIndexHeader nb type path key locale includeKeys cs treeClass
          treeVersion entries values).header.length ∧
      readUint32BE (_writeIndexHeader nb type path key locale includeKeys cs treeClass
          treeVersion entries values).header
          (_writeIndexHeader nb type path key locale includeKeys cs treeClass
            treeVersion entries values).treeRefIndex =
        (_writeIndexHeader nb type path key locale includeKeys cs treeClass
          treeVersion entries values).header.length := by
  unfold _writeIndexHeader at hsize ⊢
  simp only at hsize ⊢
  -- names for the intermediate stages of the header array
  set info1 := addInfoBytes nb
    [([116, 121, 112, 101], JsVal.str type),
     ([118, 101, 114, 115, 105, 111, 110], JsVal.num 1),
     ([112, 97, 116, 104], JsVal.str path),
     ([107, 101, 121], JsVal.str key),
     ([105, 110, 99, 108, 117, 100, 101], JsVal.arr (includeKeys.map .str)),
     ([99, 115], JsVal.bool cs),
     ([108, 111, 99, 97, 108, 101], JsVal.str locale)] with hinfo1
  set info2 := addInfoBytes nb
    [([99, 108, 97, 115, 115], JsVal.str treeClass),
     ([118, 101, 114, 115, 105, 111, 110], JsVal.num treeVersion),
     ([101, 110, 116, 114, 105, 101, 115], JsVal.num entries),
     ([118, 97, 108, 117, 101, 115], JsVal.num values)] with hinfo2
  set h0 : List Nat := [65, 67, 69, 66, 65, 83, 69, 73, 68, 88, 1, 0, 0, 0, 0] with hh0
  set h3 : List Nat := h0 ++ info1 ++ [1] ++ addNameBytes [100, 101, 102, 97, 117, 108, 116]
    with hh3
  set h5 : List Nat := h3 ++ [0, 0, 0, 0, 0, 0, 0, 0] ++ info2 with hh5
  set h6 : List Nat := h5 ++ List.replicate ((DISK_BLOCK_SIZE - h5.length % DISK_BLOCK_SIZE)
    % DISK_BLOCK_SIZE) 0 with hh6
  have htri : 15 ≤ h3.length := by
    simp only [hh3, List.length_append, hh0, List.length_cons, List.length_nil]
    omega
  have hlen5 : h3.length + 8 ≤ h5.length := by
    simp only [hh5, List.length_append, List.length_cons, List.length_nil]
    omega
  have hlen6 : h5.length ≤ h6.length := by
    simp only [hh6, List.length_append]
    omega
  have hlen78 : (setUint32BE (setUint32BE h6 11 h6.length) h3.length h6.length).length
      = h6.length := by
    rw [length_setUint32BE, length_setUint32BE]
  rw [hlen78] at hsize ⊢
  refine ⟨?_, ?_, ?_, ?_, ?_⟩
  · -- signature bytes
    rw [take_setUint32BE_of_le _ _ _ _ (by omega), take_setUint32BE_of_le _ _ _ _ (by omega)]
    simp only [hh6, hh5, hh3, hh0, List.append_assoc]
    rw [List.take_append_of_le_length (by simp)]
    rfl
  · -- layout version byte
    rw [getD_setUint32BE_lt _ _ _ _ (by omega), getD_setUint32BE_lt _ _ _ _ (by omega)]
    simp only [hh6, hh5, hh3, hh0, List.getD_eq_getElem?_getD, List.append_assoc]
    rw [List.getElem?_append_left (by simp)]
    rfl
  · -- length is a multiple of the disk block size
    simp only [hh6, List.length_append, List.length_replicate, DISK_BLOCK_SIZE]
    omega
  · -- header_length at offset 11
    rw [readUint32BE_setUint32BE_ne _ _ _ _ (by omega)]
    exact readUint32BE_setUint32BE_self _ _ _ (by omega) hsize
  · -- default tree file_index at treeRefIndex
    exact readUint32BE_setUint32BE_self _ _ _
      (by rw [length_setUint32BE]; omega) hsize

/-- Witness for C7: a concrete header for a `normal` index on path
`songs`, key `year`, locale `en`, no include keys, with an 8-byte
`numberToBytes`. -/
theorem writeIndexHeader_layout_witness :
    (_writeIndexHeader (fun _ => [0, 0, 0, 0, 0, 0, 0, 0]) [110, 111, 114, 109, 97, 108]
          [115, 111, 110, 103, 115] [121, 101, 97, 114] [101, 110] [] false
          [66, 80, 108, 117, 115, 84, 114, 101, 101] 1 3 3).header.take 10 =
        [65, 67, 69, 66, 65, 83, 69, 73, 68, 88] ∧
      (_writeIndexHeader (fun _ => [0, 0, 0, 0, 0, 0, 0, 0]) [110, 111, 114, 109, 97, 108]
          [115, 111, 110, 103, 115] [121, 101, 97, 114] [101, 110] [] false
          [66, 80, 108, 117, 115, 84, 114, 101, 101] 1 3 3).header.getD 10 0 = 1 ∧
      (_writeIndexHeader (fun _ => [0, 0, 0, 0, 0, 0, 0, 0]) [110, 111, 114, 109, 97, 108]
          [115, 111, 110, 103, 115] [121, 101, 97, 114] [101, 110] [] false
          [66, 80, 108, 117, 115, 84, 114, 101, 101] 1 3 3).header.length % 4096 = 0 ∧
      readUint32BE (_writeIndexHeader (fun _ => [0, 0, 0, 0, 0, 0, 0, 0])
          [110, 111, 114, 109, 97, 108] [115, 111, 110, 103, 115] [121, 101, 97, 114]
          [101, 110] [] false [66, 80, 108, 117, 115, 84, 114, 101, 101] 1 3 3).header 11 =
        (_writeIndexHeader (fun _ => [0, 0, 0, 0, 0, 0, 0, 0]) [110, 111, 114, 109, 97, 108]
          [115, 111, 110, 103, 115] [121, 101, 97, 114] [101, 110] [] false
          [66, 80, 108, 117, 115, 84, 114, 101, 101] 1 3 3).header.length ∧
      readUint32BE (_writeIndexHeader (fun _ => [0, 0, 0, 0, 0, 0, 0, 0])
          [110, 111, 114, 109, 97, 108] [115, 111, 110, 103, 115] [121, 101, 97, 114]
          [101, 110] [] false [66, 80, 108, 117, 115, 84, 114, 101, 101] 1 3 3).header
          (_writeIndexHeader (fun _ => [0, 0, 0, 0, 0, 0, 0, 0]) [110, 111, 114, 109, 97, 108]
            [115, 111, 110, 103, 115] [121, 101, 97, 114] [101, 110] [] false
            [66, 80, 108, 117, 115, 84, 114, 101, 101] 1 3 3).treeRefIndex =
        (_writeIndexHeader (fun _ => [0, 0, 0, 0, 0, 0, 0, 0]) [110, 111, 114, 109, 97, 108]
          [115, 111, 110, 103, 115] [121, 101, 97, 114] [101, 110] [] false
          [66, 80, 108, 117, 115, 84, 114, 101, 101] 1 3 3).header.length :=
  writeIndexHeader_layout (fun _ => [0, 0, 0, 0, 0, 0, 0, 0]) [110, 111, 114, 109, 97, 108]
    [115, 111, 110, 103, 115] [121, 101, 97, 114] [101, 110] [] false
    [66, 80, 108, 117, 115, 84, 114, 101, 101] 1 3 3 (by
      unfold _writeIndexHeader
      simp only [length_setUint32BE, List.length_append, List.length_replicate,
        DISK_BLOCK_SIZE, addInfoBytes, addNameBytes, addValueBytes, addValuesBytes,
        lenBytes2, List.map, List.flatten, List.length_cons, List.length_nil]
      omega)

/-! ## FullText phrase check (`src/data-index.js` lines 2996-2998 and 3166-3206)

Indexing stores each word's occurrence positions (word ordinals in the
tokenized text) as the comma-separated `_occurs_` metadata string
(`wordInfo.indexes.join(',')`, line 2997). The phrase check of
`FullTextIndex.query` converts it back with
`match.metadata._occurs_.split(',').map(parseInt)` (line 3178), then runs
`check(wordMatchIndex, prevWordIndex)` which accepts a record when some
occurrence of the first phrase word is followed position-by-position
(`prevWordIndex + 1`) by occurrences of the later words.

`Array.prototype.map` calls its callback with `(element, index)`, so
`.map(parseInt)` evaluates `parseInt(part, index)`: the element at array
index 0 is parsed with radix 0 (decimal), index 1 with the invalid radix
1 (`NaN`), index `i ≥ 2` in base `i`. `NaN` is modelled as `none`;
`indexOf(NaN)` is `-1` in JS, so a `NaN` never matches. -/

/-- Decimal digit char codes of a number (what `Array.join` writes). -/
def decDigits (n : Nat) : List Nat := (Nat.toDigits 10 n).map Char.toNat

/-- `array.join(',')` over already-stringified parts (44 = `,`). -/
def joinComma : List (List Nat) → List Nat
  | [] => []
  | [x] => x
  | x :: xs => x ++ 44 :: joinComma xs

/-- `string.split(',')`. -/
def splitComma : List Nat → List (List Nat)
  | [] => [[]]
  | c :: cs =>
    if c = 44 then [] :: splitComma cs
    else
      match splitComma cs with
      | r :: rs => (c :: r) :: rs
      | [] => [[c]]

/-- The numeric value of a digit char under JS `parseInt` (0-9, a-z, A-Z). -/
def digitVal (c : Nat) : Option Nat :=
  if 48 ≤ c ∧ c ≤ 57 then some (c - 48)
  else if 97 ≤ c ∧ c ≤ 122 then some (c - 87)
  else if 65 ≤ c ∧ c ≤ 90 then some (c - 55)
  else none

/-- Accumulate the longest valid-digit prefix (JS `parseInt` stops at the
first invalid char). -/
def parseIntRest (radix : Nat) : List Nat → Nat → Nat
  | [], acc => acc
  | c :: cs, acc =>
    match digitVal c with
    | some d => if d < radix then parseIntRest radix cs (acc * radix + d) else acc
    | none => acc

/-- JS `parseInt(string, radix)` on a digit string: radix 0 means 10;
radix 1 or above 36 gives `NaN`; otherwise the longest valid prefix is
parsed, `NaN` if it is empty. -/
def jsParseInt (s : List Nat) (radix : Nat) : Option Int :=
  let r := if radix = 0 then 10 else radix
  if r < 2 ∨ r > 36 then none
  else
    match s with
    | [] => none
    | c :: cs =>
      match digitVal c with
      | some d => if d < r then some (Int.ofNat (parseIntRest r cs d)) else none
      | none => none

/-- `str.split(',').map(parseInt)` — the callback receives the array index
as the radix argument. -/
def jsMapParseInt (s : List Nat) : List (Option Int) :=
  (splitComma s).enum.map (fun e => jsParseInt e.2 e.1)

/-- The recursive `check(wordMatchIndex, prevWordIndex)` for word indexes
at least 1 (lines 3190-3199): the next word must contain
`prevWordIndex + 1`; `NaN` (`none`) never matches because `indexOf` uses
strict equality. -/
def checkRest : Option Int → List (List (Option Int)) → Bool
  | _, [] => true
  | prev, l :: ls =>
    match prev with
    | none => false
    | some p => if l.contains (some (p + 1)) then checkRest (some (p + 1)) ls else false

/-- `check(0)` (lines 3180-3200): try each occurrence of the first phrase
word as the starting position. -/
def jsPhraseCheck : List (List (Option Int)) → Bool
  | [] => false
  | first :: rest => first.any (fun p => checkRest p rest)

/-- The code's whole per-record phrase test, starting from the true
occurrence positions of each phrase word: stringify (`indexes.join(',')`),
split, `map(parseInt)`, then `check(0)`. -/
def codePhraseMatch (occursLists : List (List Nat)) : Bool :=
  jsPhraseCheck (occursLists.map (fun l => jsMapParseInt (joinComma (l.map decDigits))))

/-- The claim's predicate on the true positions: some choice of positions,
one per phrase word, forms a strictly increasing run by 1 in phrase
order. -/
def specRunFrom : Nat → List (List Nat) → Bool
  | _, [] => true
  | p, l :: ls => l.contains (p + 1) && specRunFrom (p + 1) ls

/-- "the words' stored occurrence positions contain a strictly increasing
run by 1 in phrase order". -/
def specPhraseMatch : List (List Nat) → Bool
  | [] => false
  | first :: rest => first.any (fun p => specRunFrom p rest)

/-- C6 (code bug). Phrase `"hello dear"` against a record with text
`"dear hello dear"`: hello occurs at position 1, dear at positions 0 and
2, so positions 1, 2 form the strictly increasing run the claim requires
— but the code parses `_occurs_ = "0,2"` with `.map(parseInt)`, i.e.
`parseInt("2", 1)` with the invalid radix 1 = `NaN`, so `check` never
sees position 2 and the record is wrongly excluded. -/
theorem fulltext_phrase_parseInt_bug :
    specPhraseMatch [[1], [0, 2]] = true ∧ codePhraseMatch [[1], [0, 2]] = false := by
  constructor
  · decide
  · decide

/-! ## In-memory B+ tree leaf insertion (`src/unnamed/part_002`, `BPlusTreeLeaf.add`)

`BPlusTreeLeaf.add(key, recordPointer, metadata)` merges the value into an
existing entry when an entry with an equal key exists; otherwise it
inserts a new entry before the first entry with a greater key (appending
when there is none), and splits the leaf at
`Math.ceil(maxEntriesPerNode / 2)` when the leaf exceeds
`tree.maxEntriesPerNode`, linking the new right leaf directly after the
split leaf in the doubly-linked leaf chain.

For the ordering invariant only the entry keys matter (merging into an
existing entry does not change the key sequence), so a leaf is modelled
by its key list and the tree's leaf level by the list of leaves in chain
order. The tree descent that picks the leaf for a key
(`BPlusTree.findLeaf` / `BPlusTreeNode.insertKey`, whose sources are not
in the repository snapshot) is modelled from the spec: search routes a
key to the leaf it belongs to, i.e. into the last leaf whose first key is
`≤` the key (a key smaller than every leaf goes to the first leaf). -/

variable {K : Type} [LinearOrder K]

/-- The sorted insertion of `BPlusTreeLeaf.add` (lines 68-74 of the
source file): insert before the first entry whose key `_isMore` than the
new key, append when there is none (this also covers the empty-leaf
`push`). -/
def jsInsertSorted (l : List K) (k : K) : List K :=
  match l.findIdx? (fun o => decide (k < o)) with
  | some i => l.take i ++ k :: l.drop i
  | none => l ++ [k]

/-- The key-level effect of `BPlusTreeLeaf.add` on one leaf: the list of
leaves that replace it in the chain (lines 52-113). An existing equal key
merges the value and leaves the keys unchanged; otherwise the key is
inserted sorted and, past `maxEntriesPerNode` entries, the leaf splits at
`Math.ceil(maxEntriesPerNode / 2)` into itself and the new next leaf. -/
def leafAddKeys (maxEntriesPerNode : Nat) (leaf : List K) (k : K) : List (List K) :=
  if leaf.contains k then [leaf]
  else
    let entries := jsInsertSorted leaf k
    if entries.length > maxEntriesPerNode then
      let splitIndex := (maxEntriesPerNode + 1) / 2
      [entries.take splitIndex, entries.drop splitIndex]
    else [entries]

/-- Modelled from the spec: the index of the leaf a B+ tree search
descends to for `k` — the last leaf whose first key is `≤ k`, the first
leaf when `k` precedes every leaf. -/
def routeIdx : List (List K) → K → Nat
  | [], _ => 0
  | [_], _ => 0
  | _ :: next :: rest, k =>
    match next.head? with
    | some f => if k < f then 0 else routeIdx (next :: rest) k + 1
    | none => 0

/-- One `add` on the leaf chain: route to a leaf, apply
`BPlusTreeLeaf.add`, splice the resulting leaf(s) back into the chain. -/
def chainAdd (maxEntriesPerNode : Nat) (chain : List (List K)) (k : K) : List (List K) :=
  let i := routeIdx chain k
  chain.take i ++ leafAddKeys maxEntriesPerNode (chain.getD i []) k ++ chain.drop (i + 1)

/-- A sequence of adds applied to the initial single empty leaf (a fresh
tree's root leaf). -/
def chainAddAll (maxEntriesPerNode : Nat) (ops : List K) : List (List K) :=
  ops.foldl (chainAdd maxEntriesPerNode) [[]]

/-- The invariant carried across adds: the chain is nonempty, the keys of
all leaves in chain order are strictly ascending, and every leaf after
the first is nonempty. -/
def ChainInv (chain : List (List K)) : Prop :=
  chain ≠ [] ∧ chain.flatten.Pairwise (· < ·) ∧ ∀ l ∈ chain.tail, l ≠ []

theorem jsInsertSorted_nil (k : K) : jsInsertSorted ([] : List K) k = [k] := by
  simp [jsInsertSorted, List.findIdx?]

theorem jsInsertSorted_cons (b : K) (l : List K) (k : K) :
    jsInsertSorted (b :: l) k = if k < b then k :: b :: l else b :: jsInsertSorted l k := by
  unfold jsInsertSorted
  rw [List.findIdx?_cons, List.findIdx?_succ]
  by_cases h : k < b
  · simp [h]
  · rw [if_neg h, decide_eq_false h]
    simp only [Bool.false_eq_true, if_false]
    cases hf : List.findIdx? (fun o => decide (k < o)) l with
    | none => simp
    | some i => simp

theorem mem_jsInsertSorted (l : List K) (k x : K) :
    x ∈ jsInsertSorted l k ↔ x ∈ l ∨ x = k := by
  induction l with
  | nil => simp [jsInsertSorted_nil]
  | cons b t ih =>
    rw [jsInsertSorted_cons]
    by_cases h : k < b
    · simp only [if_pos h, List.mem_cons]
      tauto
    · simp only [if_neg h, List.mem_cons, ih]
      tauto

theorem pairwise_jsInsertSorted (l : List K) (k : K) (hp : l.Pairwise (· < ·))
    (hk : ¬ k ∈ l) : (jsInsertSorted l k).Pairwise (· < ·) := by
  induction l with
  | nil => simp [jsInsertSorted_nil]
  | cons b t ih =>
    rw [List.pairwise_cons] at hp
    rw [jsInsertSorted_cons]
    by_cases h : k < b
    · rw [if_pos h]
      refine List.Pairwise.cons ?_ (List.Pairwise.cons hp.1 hp.2)
      intro y hy
      rcases List.mem_cons.mp hy with h' | h'
      · exact h' ▸ h
      · exact lt_trans h (hp.1 y h')
    · rw [if_neg h]
      have hkb : k ≠ b := fun hkb => hk (hkb ▸ List.mem_cons_self b t)
      have hbk : b < k := lt_of_le_of_ne (not_lt.mp h) (Ne.symm hkb)
      refine List.Pairwise.cons ?_ (ih hp.2 (fun hm => hk (List.mem_cons_of_mem b hm)))
      intro y hy
      rcases (mem_jsInsertSorted t k y).mp hy with h' | h'
      · exact hp.1 y h'
      · exact h' ▸ hbk

theorem flatten_leafAddKeys (M : Nat) (leaf : List K) (k : K) :
    (leafAddKeys M leaf k).flatten =
      if leaf.contains k then leaf else jsInsertSorted leaf k := by
  unfold leafAddKeys
  by_cases hc : leaf.contains k
  · have hc' : k ∈ leaf := List.mem_of_elem_eq_true hc
    simp [hc, hc']
  · have hc' : ¬ k ∈ leaf := fun hm => hc (List.elem_eq_true_of_mem hm)
    simp only [hc, Bool.false_eq_true, if_false]
    by_cases hl : (jsInsertSorted leaf k).length > M
    · simp [hl, List.take_append_drop]
    · simp [hl]

theorem leafAddKeys_ne_nil (M : Nat) (leaf : List K) (k : K) :
    leafAddKeys M leaf k ≠ [] := by
  unfold leafAddKeys
  split <;> simp
  split <;> simp

theorem length_jsInsertSorted (l : List K) (k : K) :
    (jsInsertSorted l k).length = l.length + 1 := by
  induction l with
  | nil => simp [jsInsertSorted_nil]
  | cons b t ih =>
    rw [jsInsertSorted_cons]
    by_cases h : k < b
    · simp [h]
    · simp [h, ih]

theorem leafAddKeys_all_ne_nil (M : Nat) (hM : 1 ≤ M) (leaf : List K) (k : K) :
    ∀ l' ∈ leafAddKeys M leaf k, l' ≠ [] := by
  intro l' hl'
  unfold leafAddKeys at hl'
  by_cases hc : leaf.contains k
  · simp only [hc, if_true, List.mem_singleton] at hl'
    subst hl'
    exact List.ne_nil_of_mem (List.mem_of_elem_eq_true hc)
  · simp only [hc, Bool.false_eq_true, if_false] at hl'
    have hmem : k ∈ jsInsertSorted leaf k := (mem_jsInsertSorted leaf k k).mpr (Or.inr rfl)
    by_cases hlen : (jsInsertSorted leaf k).length > M
    · simp only [hlen, if_true] at hl'
      rcases List.mem_cons.mp hl' with h | h
      · subst h
        have h1 : 1 ≤ (M + 1) / 2 := by omega
        intro hnil
        rw [List.take_eq_nil_iff] at hnil
        rcases hnil with h' | h'
        · omega
        · rw [h'] at hmem
          exact absurd hmem (List.not_mem_nil k)
      · rcases List.mem_cons.mp h with h | h
        · subst h
          intro hnil
          rw [List.drop_eq_nil_iff] at hnil
          have : (M + 1) / 2 ≤ M := by omega
          omega
        · exact absurd h (List.not_mem_nil l')
    · simp only [hlen, if_false] at hl'
      rcases List.mem_cons.mp hl' with h | h
      · subst h
        exact List.ne_nil_of_mem hmem
      · exact absurd h (List.not_mem_nil l')

theorem routeIdx_lt (chain : List (List K)) (k : K) (h : chain ≠ []) :
    routeIdx chain k < chain.length := by
  induction chain with
  | nil => exact absurd rfl h
  | cons l rest ih =>
    cases rest with
    | nil => simp [routeIdx]
    | cons next rest' =>
      show routeIdx (l :: next :: rest') k < (l :: next :: rest').length
      unfold routeIdx
      cases hn : next.head? with
      | none => simp
      | some f =>
        by_cases hk : k < f
        · simp [hk]
        · simp only [hk, if_false, List.length_cons]
          have := ih (by simp)
          simp only [List.length_cons] at this
          omega

theorem routeIdx_pos_head (chain : List (List K)) (k : K)
    (h : 0 < routeIdx chain k) :
    ∃ f, (chain.getD (routeIdx chain k) []).head? = some f ∧ ¬ k < f := by
  induction chain with
  | nil => simp [routeIdx] at h
  | cons l rest ih =>
    cases rest with
    | nil => simp [routeIdx] at h
    | cons next rest' =>
      revert h
      show 0 < routeIdx (l :: next :: rest') k → _
      unfold routeIdx
      cases hn : next.head? with
      | none => intro h; simp at h
      | some f =>
        by_cases hk : k < f
        · intro h; simp [hk] at h
        · intro _
          simp only [hk, if_false]
          by_cases hr : 0 < routeIdx (next :: rest') k
          · obtain ⟨f', hf', hkf'⟩ := ih hr
            exact ⟨f', by simpa using hf', hkf'⟩
          · have hr0 : routeIdx (next :: rest') k = 0 := by omega
            refine ⟨f, ?_, hk⟩
            simp [hr0, hn]

theorem routeIdx_next_head (chain : List (List K)) (k : K)
    (h : routeIdx chain k + 1 < chain.length)
    (hne : ∀ l ∈ chain.tail, l ≠ []) :
    ∃ f, (chain.getD (routeIdx chain k + 1) []).head? = some f ∧ k < f := by
  induction chain with
  | nil => simp at h
  | cons l rest ih =>
    cases rest with
    | nil => simp [routeIdx] at h
    | cons next rest' =>
      revert h
      show routeIdx (l :: next :: rest') k + 1 < _ → _
      unfold routeIdx
      cases hn : next.head? with
      | none =>
        have : next ≠ [] := hne next (by simp)
        rw [List.head?_eq_none_iff] at hn
        exact absurd hn this
      | some f =>
        by_cases hk : k < f
        · intro _
          simp only [hk, if_true]
          exact ⟨f, by simp [hn], hk⟩
        · intro h
          simp only [hk, if_false] at h ⊢
          have hih := ih (by simp only [List.length_cons] at h ⊢; omega)
            (fun l' hl' => hne l' (by simp at hl' ⊢; exact Or.inr hl'))
          obtain ⟨f', hf', hkf'⟩ := hih
          exact ⟨f', by simpa using hf', hkf'⟩

theorem tail_append_of_ne_nil (X Y : List (List K)) (h : X ≠ []) :
    (X ++ Y).tail = X.tail ++ Y := by
  cases X with
  | nil => exact absurd rfl h
  | cons a t => simp

theorem tail_take (l : List (List K)) (n : Nat) :
    (l.take n).tail = l.tail.take (n - 1) := by
  cases l with
  | nil => simp
  | cons c t =>
    cases n with
    | zero => simp
    | succ m => simp

theorem chainAdd_inv (M : Nat) (hM : 1 ≤ M) (chain : List (List K)) (k : K)
    (h : ChainInv chain) : ChainInv (chainAdd M chain k) := by
  obtain ⟨hne, hpw, htail⟩ := h
  have hi : routeIdx chain k < chain.length := routeIdx_lt chain k hne
  set i := routeIdx chain k with hi_def
  set leaf := chain.getD i [] with hleaf_def
  have hgetD : leaf = chain[i] := List.getD_eq_getElem chain [] hi
  have hdecomp : chain = chain.take i ++ leaf :: chain.drop (i + 1) := by
    rw [hgetD]
    conv_lhs => rw [← List.take_append_drop i chain]
    rw [List.drop_eq_getElem_cons hi]
  set A := chain.take i with hA
  set B := chain.drop (i + 1) with hB
  -- the old flatten, pairwise, in decomposed shape
  have hpw' : (A.flatten ++ (leaf ++ B.flatten)).Pairwise (· < ·) := by
    rw [hdecomp] at hpw
    simpa [List.flatten_append, List.flatten_cons] using hpw
  rw [List.pairwise_append] at hpw'
  obtain ⟨hPA, hPLB, hCA⟩ := hpw'
  rw [List.pairwise_append] at hPLB
  obtain ⟨hPL, hPB, hCLB⟩ := hPLB
  -- routing bound on the left part
  have hFA : ∀ a ∈ A.flatten, a < k := by
    intro a ha
    rcases Nat.eq_zero_or_pos i with h0 | hpos
    · rw [hA, h0] at ha
      simp at ha
    · obtain ⟨f, hf, hkf⟩ := routeIdx_pos_head chain k hpos
      have hfleaf : f ∈ leaf := by
        rw [hleaf_def]
        exact List.mem_of_mem_head? hf
      exact lt_of_lt_of_le (hCA a ha f (by simp [hfleaf])) (not_lt.mp hkf)
  -- routing bound on the right part
  have hFB : ∀ b ∈ B.flatten, k < b := by
    intro b hb
    by_cases hlen : i + 1 < chain.length
    · obtain ⟨f', hf', hkf'⟩ := routeIdx_next_head chain k hlen htail
      have hBdec : B = chain[i + 1] :: chain.drop (i + 2) := by
        rw [hB, List.drop_eq_getElem_cons hlen]
      have hgd : chain.getD (i + 1) [] = chain[i + 1] :=
        List.getD_eq_getElem chain [] hlen
      rw [hgd] at hf'
      obtain ⟨t', ht'⟩ := List.head?_eq_some_iff.mp hf'
      have hBflat : B.flatten = f' :: (t' ++ (chain.drop (i + 2)).flatten) := by
        rw [hBdec, List.flatten_cons, ht']
        simp
      rw [hBflat] at hb hPB
      rw [List.pairwise_cons] at hPB
      rcases List.mem_cons.mp hb with h' | h'
      · exact h' ▸ hkf'
      · exact lt_trans hkf' (hPB.1 b h')
    · rw [hB, List.drop_eq_nil_iff.mpr (by omega)] at hb
      simp at hb
  -- the new chain and its three invariant components
  show ChainInv (A ++ leafAddKeys M leaf k ++ B)
  refine ⟨?_, ?_, ?_⟩
  · intro hnil
    rcases List.append_eq_nil.mp hnil with ⟨hnil', _⟩
    rcases List.append_eq_nil.mp hnil' with ⟨_, hx⟩
    exact leafAddKeys_ne_nil M leaf k hx
  · rw [List.flatten_append, List.flatten_append, flatten_leafAddKeys]
    by_cases hc : leaf.contains k
    · rw [if_pos hc, List.append_assoc]
      rw [List.pairwise_append]
      exact ⟨hPA, by rw [List.pairwise_append]; exact ⟨hPL, hPB, hCLB⟩, hCA⟩
    · rw [if_neg hc, List.append_assoc]
      have hc' : ¬ k ∈ leaf := fun hm => hc (List.elem_eq_true_of_mem hm)
      rw [List.pairwise_append]
      refine ⟨hPA, ?_, ?_⟩
      · rw [List.pairwise_append]
        refine ⟨pairwise_jsInsertSorted leaf k hPL hc', hPB, ?_⟩
        intro x hx b hb
        rcases (mem_jsInsertSorted leaf k x).mp hx with h' | h'
        · exact hCLB x h' b hb
        · exact h' ▸ hFB b hb
      · intro a ha y hy
        rcases List.mem_append.mp hy with h' | h'
        · rcases (mem_jsInsertSorted leaf k y).mp h' with h'' | h''
          · exact hCA a ha y (by simp [h''])
          · exact h'' ▸ hFA a ha
        · exact hCA a ha y (by simp [h'])
  · intro l hl
    rcases Nat.eq_zero_or_pos i with h0 | hpos
    · rw [hA, h0] at hl
      simp only [List.take_zero, List.nil_append] at hl
      rw [tail_append_of_ne_nil _ _ (leafAddKeys_ne_nil M leaf k)] at hl
      rcases List.mem_append.mp hl with h' | h'
      · exact leafAddKeys_all_ne_nil M hM leaf k l (List.tail_subset _ h')
      · refine htail l ?_
        rw [← List.drop_one]
        have : chain.drop (i + 1) = chain.drop 1 := by rw [h0]
        rw [hB, this] at h'
        exact h'
    · have hAne : A ≠ [] := by
        rw [hA]
        intro hnil
        rw [List.take_eq_nil_iff] at hnil
        rcases hnil with h' | h'
        · omega
        · exact hne h'
      rw [List.append_assoc, tail_append_of_ne_nil _ _ hAne] at hl
      rcases List.mem_append.mp hl with h' | h'
      · refine htail l ?_
        rw [hA, tail_take] at h'
        exact List.take_subset _ _ h'
      · rcases List.mem_append.mp h' with h'' | h''
        · exact leafAddKeys_all_ne_nil M hM leaf k l h''
        · refine htail l ?_
          have h3 : l ∈ chain.drop (i + 1) := hB ▸ h''
          rw [← List.drop_one]
          have h4 : chain.drop (i + 1) = (chain.drop 1).drop i := by
            rw [List.drop_drop, Nat.add_comm]
          exact List.drop_subset i (chain.drop 1) (h4 ▸ h3)

theorem chainAddAll_inv (M : Nat) (hM : 1 ≤ M) (ops : List K) :
    ChainInv (chainAddAll M ops) := by
  have hinit : ChainInv ([[]] : List (List K)) := ⟨by simp, by simp, by simp⟩
  unfold chainAddAll
  suffices h : ∀ chain : List (List K), ChainInv chain →
      ChainInv (ops.foldl (chainAdd M) chain) from h [[]] hinit
  induction ops with
  | nil => intro chain h; simpa using h
  | cons k ops ih =>
    intro chain h
    simp only [List.foldl_cons]
    exact ih _ (chainAdd_inv M hM chain k h)

/-- C2. After any sequence of adds on the in-memory B+ tree (each add
routed by search to its leaf and performed by `BPlusTreeLeaf.add`,
including splits), every leaf's entry keys are strictly ascending, and
the last key of each leaf is strictly less than the first key of the next
leaf in the chain. -/
theorem leafChain_sorted_after_adds (M : Nat) (hM : 1 ≤ M) (ops : List K) :
    (∀ leaf ∈ chainAddAll M ops, leaf.Pairwise (· < ·)) ∧
      (∀ i : Nat, i + 1 < (chainAddAll M ops).length →
        ∀ x ∈ ((chainAddAll M ops).getD i []).getLast?,
        ∀ y ∈ ((chainAddAll M ops).getD (i + 1) []).head?, x < y) := by
  obtain ⟨hne, hpw, htail⟩ := chainAddAll_inv M hM ops
  set chain := chainAddAll M ops with hchain
  constructor
  · intro leaf hl
    exact List.Pairwise.sublist (List.sublist_join_of_mem hl) hpw
  · intro i hlen x hx y hy
    have hi : i < chain.length := by omega
    have hd1 : chain.drop i = chain[i] :: chain.drop (i + 1) :=
      List.drop_eq_getElem_cons hi
    have hd2 : chain.drop (i + 1) = chain[i + 1] :: chain.drop (i + 2) :=
      List.drop_eq_getElem_cons hlen
    have hsplit : chain = chain.take i ++ chain[i] :: chain[i + 1] :: chain.drop (i + 2) := by
      conv_lhs => rw [← List.take_append_drop i chain]
      rw [hd1, hd2]
    have hpw2 : (chain.take i
        ++ chain[i] :: chain[i + 1] :: chain.drop (i + 2)).flatten.Pairwise (· < ·) :=
      hsplit ▸ hpw
    rw [List.flatten_append, List.flatten_cons, List.flatten_cons,
      List.pairwise_append] at hpw2
    obtain ⟨-, h2, -⟩ := hpw2
    rw [List.pairwise_append] at h2
    obtain ⟨-, -, hcross⟩ := h2
    have hx' : x ∈ chain[i] := by
      rw [← List.getD_eq_getElem chain [] hi]
      exact List.mem_of_mem_getLast? hx
    have hy' : y ∈ chain[i + 1] := by
      rw [← List.getD_eq_getElem chain [] hlen]
      exact List.mem_of_mem_head? hy
    exact hcross x hx' y (List.mem_append_left _ hy')

/-- Witness for C2: `maxEntriesPerNode = 3` and the concrete add sequence
`[3, 1, 4, 1, 5, 9, 2, 6]` over `ℤ` (the duplicate 1 exercises the merge
branch, and eight keys at order 3 force leaf splits). -/
theorem leafChain_sorted_after_adds_witness :
    1 ≤ 3 ∧
      ((∀ leaf ∈ chainAddAll 3 ([3, 1, 4, 1, 5, 9, 2, 6] : List Int),
          leaf.Pairwise (· < ·)) ∧
        (∀ i : Nat, i + 1 < (chainAddAll 3 ([3, 1, 4, 1, 5, 9, 2, 6] : List Int)).length →
          ∀ x ∈ ((chainAddAll 3 ([3, 1, 4, 1, 5, 9, 2, 6] : List Int)).getD i []).getLast?,
          ∀ y ∈ ((chainAddAll 3 ([3, 1, 4, 1, 5, 9, 2, 6] : List Int)).getD
            (i + 1) []).head?, x < y)) :=
  ⟨by decide, leafChain_sorted_after_adds 3 (by decide) [3, 1, 4, 1, 5, 9, 2, 6]⟩

/-! ## Bottom-up bulk builder (`src/src/ts/btree/tree-builder.ts`,
`BPlusTreeBuilder.create`, lines 77-296)

`create` sorts the key/value list, slices it into leaves of
`entriesPerLeaf` entries, and builds internal levels bottom-up: every
`entriesPerNode + 1` consecutive children share a parent; each child
except a parent's last contributes a routing entry whose key is the first
key of the leftmost leaf of the *next* child (leaf level: `list[fromIndex
+ entriesPerLeaf].key`, line 199; node level: the descent to
`ltChild.entries[0]` of `node.nextNode`, lines 251-255), the parent's
last child becomes `gtChild`. When the level's last parent ends with
fewer than `minParentEntries` entries (only the last parent can, since
every other parent has exactly `entriesPerNode` entries), entries are
moved from the previous parent (lines 157-195, 218-248): the previous
parent's last entry is popped, its `ltChild` becomes the previous
parent's `gtChild`, the old `gtChild` becomes the moved entry's
`ltChild`, and the moved key is replaced by the first key of the leftmost
leaf of the under-full parent's first child (on the node level this is
the line the source marks "Mistake discovered during TS port", which
descends to the leftmost *leaf*).

The key comparison `_sortCompare` (`typesafe-compare.ts`, not in the
repository snapshot) is a total order per spec section 4.2 and is
modelled by a `LinearOrder` on the key type. -/

/-- The in-memory B+ tree produced by the builder: a leaf holds the
key/value entries; an internal node holds routing entries, each a key
with its less-than child, plus one greater-than child. -/
inductive BTree (K V : Type) where
  | leaf (entries : List (K × V))
  | node (entries : List (K × BTree K V)) (gtChild : BTree K V)

/-- The entries of the leftmost leaf of a subtree (descending through the
first child; a node without entries has only its `gtChild`). This is the
leaf the source's `while (!(ltChild instanceof BPlusTreeLeaf)) ltChild =
ltChild.entries[0].ltChild` descent reaches. -/
def leftmostLeafEntries {K V : Type} : BTree K V → List (K × V)
  | .leaf es => es
  | .node [] gt => leftmostLeafEntries gt
  | .node ((_, c) :: _) _ => leftmostLeafEntries c

/-- The first key of a subtree's leftmost leaf. -/
def minLeafKey {K V : Type} (t : BTree K V) : Option K :=
  (leftmostLeafEntries t).head?.map Prod.fst

/-- Slice a list into consecutive chunks of `n` elements — the source's
`list.slice(i * n, i * n + n)` for `i = 0 .. ceil(length / n) - 1`. -/
def chunks {α : Type} : Nat → List α → List (List α)
  | _, [] => []
  | 0, l => [l]
  | n + 1, a :: l => (a :: l).take (n + 1) :: chunks (n + 1) ((a :: l).drop (n + 1))
termination_by _ l => l.length
decreasing_by
  simp
  omega

/-- The routing entries of one parent over the child group `g`: each
child except the last is paired with the first key of the leftmost leaf
of the following child (leaf level line 199, node level lines 251-258). -/
def mkNodeEntries {K V : Type} [Inhabited K] : List (BTree K V) → List (K × BTree K V)
  | [] => []
  | [_] => []
  | c :: next :: rest => ((minLeafKey next).getD default, c) :: mkNodeEntries (next :: rest)

/-- One parent node over the child group `g`; the group's last child is
the parent's `gtChild` (lines 151-155, 218-221). -/
def mkNode {K V : Type} [Inhabited K] (g : List (BTree K V)) : BTree K V :=
  .node (mkNodeEntries g) ((g.getLast?).getD (.leaf []))

/-- The number of entries of a node (`parent.entries.length`). -/
def nodeEntriesCount {K V : Type} : BTree K V → Nat
  | .leaf _ => 0
  | .node es _ => es.length

/-- One iteration of the entry-moving loop (lines 180-193, 228-246),
acting on (previous parent, under-full last parent): pop the previous
parent's last entry, point the previous parent's `gtChild` at the popped
entry's `ltChild`, re-key the popped entry with the first key of the
leftmost leaf of the under-full parent's current first child, attach the
previous parent's old `gtChild` as its `ltChild`, and unshift it into the
under-full parent. (The source never reaches the pop of an entryless
previous parent; the model leaves the pair unchanged there.) -/
def moveOne {K V : Type} [Inhabited K] :
    BTree K V × BTree K V → BTree K V × BTree K V
  | (.node pe pgt, .node e d) =>
    match pe.getLast? with
    | none => (.node pe pgt, .node e d)
    | some me =>
      let firstChild :=
        match e with
        | [] => d
        | (_, lt) :: _ => lt
      let newKey := (minLeafKey firstChild).getD default
      (.node pe.dropLast me.2, .node ((newKey, pgt) :: e) d)
  | p => p

/-- `nrOfParentEntries2Move` iterations of `moveOne`. -/
def iterMove {K V : Type} [Inhabited K] :
    Nat → BTree K V × BTree K V → BTree K V × BTree K V
  | 0, p => p
  | m + 1, p => iterMove m (moveOne p)

/-- The node-level rebalance (lines 157-195 and 223-248): when there is
more than one parent at this level and the last parent has fewer than
`minParentEntries` entries, move `minParentEntries - entries.length`
entries over from the previous parent. In the source the check runs for
every parent as its last child is assigned, but only the level's last
parent can be under-full — every other parent has exactly
`entriesPerNode` entries. -/
def rebalanceLevel {K V : Type} [Inhabited K] (minParentEntries : Nat)
    (nodes : List (BTree K V)) : List (BTree K V) :=
  if nodes.length ≤ 1 then nodes
  else
    let parent := (nodes.getLast?).getD (.leaf [])
    if nodeEntriesCount parent < minParentEntries then
      let prev := (nodes.dropLast.getLast?).getD (.leaf [])
      let m := minParentEntries - nodeEntriesCount parent
      let (prev', parent') := iterMove m (prev, parent)
      nodes.dropLast.dropLast ++ [prev', parent']
    else nodes

/-- One bottom-up level: group the children `entriesPerNode + 1` per
parent, build each parent's routing entries, then rebalance the level's
last parent. -/
def buildLevel {K V : Type} [Inhabited K] (parentConnections minParentEntries : Nat)
    (children : List (BTree K V)) : List (BTree K V) :=
  rebalanceLevel minParentEntries ((chunks parentConnections children).map mkNode)

/-- The `while (true)` level loop (lines 108-280): build parent levels
until a single parent remains, which becomes the root. `fuel` bounds the
iteration count (the caller passes the leaf count, which is more than the
number of levels whenever `parentConnections ≥ 2`). -/
def buildLevels {K V : Type} [Inhabited K] (parentConnections minParentEntries : Nat) :
    Nat → List (BTree K V) → BTree K V
  | 0, children => children.headD (.leaf [])
  | fuel + 1, children =>
    let parents := buildLevel parentConnections minParentEntries children
    if parents.length = 1 then parents.headD (.leaf [])
    else buildLevels parentConnections minParentEntries fuel parents

/-- Embeds `BPlusTreeBuilder.create(maxEntries)` (lines 77-296) for the
builder's entry list `list` (the Map's key/value pairs), fill factor in
percent, and an explicit `maxEntries`: sort by key, slice into leaves of
`entriesPerLeaf = max(3, floor(entriesPerNode * fillFactor / 100))`
entries, then build levels with `parentConnections = entriesPerNode + 1`
and `minParentEntries = max(1, floor(entriesPerNode / 2))`; a single leaf
becomes the root directly. -/
def create {K V : Type} [LinearOrder K] [Inhabited K] (list : List (K × V))
    (maxEntries fillFactor : Nat) : BTree K V :=
  let sorted := list.mergeSort (fun a b => decide (a.1 ≤ b.1))
  let entriesPerNode := maxEntries
  let entriesPerLeaf := max 3 (entriesPerNode * fillFactor / 100)
  let minParentEntries := max 1 (entriesPerNode / 2)
  let nrOfLeafs := max 1 ((sorted.length + entriesPerLeaf - 1) / entriesPerLeaf)
  let parentConnections := entriesPerNode + 1
  let leaves : List (BTree K V) :=
    if sorted.length = 0 then [.leaf []] else (chunks entriesPerLeaf sorted).map .leaf
  if nrOfLeafs = 1 then leaves.headD (.leaf [])
  else buildLevels parentConnections minParentEntries leaves.length leaves

/-- The subtree that a routing entry at position `j` routes to on the
greater-than-or-equal side: the `ltChild` of the following entry, or the
node's `gtChild` when the entry is the last one. -/
def routeTarget {K V : Type} (es : List (K × BTree K V)) (gt : BTree K V) (j : Nat) :
    BTree K V :=
  (((es.drop (j + 1)).head?).map Prod.snd).getD gt

/-- Construction-level invariant of one node's routing keys: each routing
key is the first key of the leftmost leaf of its greater-than-or-equal
subtree. -/
def RoutingKeysOk {K V : Type} (es : List (K × BTree K V)) (gt : BTree K V) : Prop :=
  ∀ j e, ((es.drop j).head? = some e) → some e.1 = minLeafKey (routeTarget es gt j)

/-- Well-formedness of a subtree during the bottom-up build: leaves are
nonempty with ascending keys, and every node's routing keys satisfy
`RoutingKeysOk` recursively. -/
inductive WF {K V : Type} [LinearOrder K] : BTree K V → Prop where
  | leaf (es : List (K × V)) (hne : es ≠ [])
      (hsorted : (es.map Prod.fst).Pairwise (· ≤ ·)) : WF (.leaf es)
  | node (es : List (K × BTree K V)) (gt : BTree K V) (hkeys : RoutingKeysOk es gt)
      (hch : ∀ e ∈ es, WF e.2) (hgt : WF gt) : WF (.node es gt)

/-- The claim's per-node property: each routing key *is the smallest key*
of the leftmost leaf of the subtree it routes to on the
greater-than-or-equal side (it occurs among that leaf's keys and is `≤`
all of them). -/
def RoutingKeyIsMin {K V : Type} [LinearOrder K] (es : List (K × BTree K V))
    (gt : BTree K V) : Prop :=
  ∀ j e, ((es.drop j).head? = some e) →
    e.1 ∈ (leftmostLeafEntries (routeTarget es gt j)).map Prod.fst ∧
    ∀ k' ∈ (leftmostLeafEntries (routeTarget es gt j)).map Prod.fst, e.1 ≤ k'

/-- The claim, over a whole tree: every internal node's routing keys are
the smallest keys of their greater-than-or-equal subtrees' leftmost
leaves. -/
inductive AllRouted {K V : Type} [LinearOrder K] : BTree K V → Prop where
  | leaf (es : List (K × V)) : AllRouted (.leaf es)
  | node (es : List (K × BTree K V)) (gt : BTree K V) (hkeys : RoutingKeyIsMin es gt)
      (hch : ∀ e ∈ es, AllRouted e.2) (hgt : AllRouted gt) : AllRouted (.node es gt)

theorem WF_leftmost {K V : Type} [LinearOrder K] {t : BTree K V} (h : WF t) :
    leftmostLeafEntries t ≠ [] ∧
      ((leftmostLeafEntries t).map Prod.fst).Pairwise (· ≤ ·) := by
  induction h with
  | leaf es hne hsorted => exact ⟨hne, hsorted⟩
  | node es gt hkeys hch hgt ihch ihgt =>
    cases es with
    | nil => exact ihgt
    | cons e rest =>
      obtain ⟨k, c⟩ := e
      exact ihch (k, c) (by simp)

theorem WF_minLeafKey_isSome {K V : Type} [LinearOrder K] {t : BTree K V} (h : WF t) :
    ∃ k, minLeafKey t = some k := by
  obtain ⟨hne, -⟩ := WF_leftmost h
  obtain ⟨a, tl, ha⟩ := List.exists_cons_of_ne_nil hne
  exact ⟨a.1, by simp [minLeafKey, ha]⟩

theorem WF_minLeafKey_min {K V : Type} [LinearOrder K] {t : BTree K V} (h : WF t)
    {k : K} (hk : minLeafKey t = some k) :
    k ∈ (leftmostLeafEntries t).map Prod.fst ∧
      ∀ k' ∈ (leftmostLeafEntries t).map Prod.fst, k ≤ k' := by
  obtain ⟨hne, hsorted⟩ := WF_leftmost h
  obtain ⟨a, tl, ha⟩ := List.exists_cons_of_ne_nil hne
  have hk' : k = a.1 := by
    rw [minLeafKey, ha] at hk
    simpa using hk.symm
  subst hk'
  rw [ha]
  rw [ha, List.map_cons, List.pairwise_cons] at hsorted
  refine ⟨by simp, ?_⟩
  intro k' hk'
  rw [List.map_cons, List.mem_cons] at hk'
  rcases hk' with h' | h'
  · exact le_of_eq h'.symm
  · exact hsorted.1 k' h'

theorem routeTarget_WF {K V : Type} [LinearOrder K] {es : List (K × BTree K V)}
    {gt : BTree K V} (hch : ∀ e ∈ es, WF e.2) (hgt : WF gt) (j : Nat) :
    WF (routeTarget es gt j) := by
  unfold routeTarget
  cases hd : (es.drop (j + 1)).head? with
  | none => simpa using hgt
  | some e =>
    have he : e ∈ es := (List.drop_subset _ _) (List.mem_of_mem_head? hd)
    simpa using hch e he

theorem WF_allRouted {K V : Type} [LinearOrder K] {t : BTree K V} (h : WF t) :
    AllRouted t := by
  induction h with
  | leaf es hne hsorted => exact AllRouted.leaf es
  | node es gt hkeys hch hgt ihch ihgt =>
    refine AllRouted.node es gt ?_ ihch ihgt
    intro j e he
    have htWF : WF (routeTarget es gt j) := routeTarget_WF hch hgt j
    obtain ⟨k, hk⟩ := WF_minLeafKey_isSome htWF
    have he1 : e.1 = k := by
      have := hkeys j e he
      rw [hk] at this
      exact Option.some.inj this
    rw [he1]
    exact WF_minLeafKey_min htWF hk

theorem mkNodeEntries_snd_mem {K V : Type} [Inhabited K] (g : List (BTree K V)) :
    ∀ e ∈ mkNodeEntries g, e.2 ∈ g := by
  induction g with
  | nil => simp [mkNodeEntries]
  | cons c rest ih =>
    cases rest with
    | nil => simp [mkNodeEntries]
    | cons next rest' =>
      intro e he
      rw [show mkNodeEntries (c :: next :: rest')
          = ((minLeafKey next).getD default, c) :: mkNodeEntries (next :: rest') from rfl] at he
      rcases List.mem_cons.mp he with h | h
      · rw [h]
        simp
      · exact List.mem_cons_of_mem c (ih e h)

theorem RoutingKeysOk_mkNodeEntries {K V : Type} [LinearOrder K] [Inhabited K]
    (g : List (BTree K V)) (h : ∀ t ∈ g, WF t) :
    RoutingKeysOk (mkNodeEntries g) ((g.getLast?).getD (.leaf [])) := by
  induction g with
  | nil => intro j e he; simp [mkNodeEntries] at he
  | cons c rest ih =>
    cases rest with
    | nil => intro j e he; simp [mkNodeEntries] at he
    | cons next rest' =>
      intro j e he
      have hnextWF : WF next := h next (by simp)
      cases j with
      | zero =>
        have he' : e = ((minLeafKey next).getD default, c) := by
          rw [show mkNodeEntries (c :: next :: rest')
            = ((minLeafKey next).getD default, c) :: mkNodeEntries (next :: rest') from rfl] at he
          exact (by simpa using he : _ = e).symm

        obtain ⟨k, hk⟩ := WF_minLeafKey_isSome hnextWF
        have htarget : routeTarget (mkNodeEntries (c :: next :: rest'))
            (((c :: next :: rest').getLast?).getD (.leaf [])) 0 = next := by
          unfold routeTarget
          cases rest' with
          | nil => simp [mkNodeEntries]
          | cons r rest'' => simp [mkNodeEntries]
        rw [htarget, he', hk]
        simp
      | succ j =>
        have he' : ((mkNodeEntries (next :: rest')).drop j).head? = some e := by
          rw [show mkNodeEntries (c :: next :: rest')
            = ((minLeafKey next).getD default, c) :: mkNodeEntries (next :: rest') from rfl,
            List.drop_succ_cons] at he
          exact he
        have ihj := ih (fun t ht => h t (List.mem_cons_of_mem c ht)) j e he'
        have htarget : routeTarget (mkNodeEntries (c :: next :: rest'))
            (((c :: next :: rest').getLast?).getD (.leaf [])) (j + 1)
            = routeTarget (mkNodeEntries (next :: rest'))
              (((next :: rest').getLast?).getD (.leaf [])) j := by
          unfold routeTarget
          rw [show mkNodeEntries (c :: next :: rest')
            = ((minLeafKey next).getD default, c) :: mkNodeEntries (next :: rest') from rfl,
            List.drop_succ_cons, List.getLast?_cons_cons]
        rw [htarget]
        exact ihj

theorem mkNode_WF {K V : Type} [LinearOrder K] [Inhabited K] (g : List (BTree K V))
    (hg : g ≠ []) (h : ∀ t ∈ g, WF t) : WF (mkNode g) := by
  refine WF.node _ _ (RoutingKeysOk_mkNodeEntries g h) ?_ ?_
  · intro e he
    exact h e.2 (mkNodeEntries_snd_mem g e he)
  · cases hg' : g.getLast? with
    | none =>
      rw [List.getLast?_eq_none_iff] at hg'
      exact absurd hg' hg
    | some x =>
      simpa using h x (List.mem_of_mem_getLast? hg')

theorem head?_append_of_some {α : Type} {l1 l2 : List α} {a : α} (h : l1.head? = some a) :
    (l1 ++ l2).head? = some a := by
  cases l1 with
  | nil => simp at h
  | cons x t => simpa using h

theorem lt_length_of_drop_head? {α : Type} {l : List α} {n : Nat} {a : α}
    (h : (l.drop n).head? = some a) : n < l.length := by
  by_contra hn
  rw [List.drop_eq_nil_iff.mpr (by omega)] at h
  simp at h

theorem moveOne_WF {K V : Type} [LinearOrder K] [Inhabited K] (p : BTree K V × BTree K V)
    (h1 : WF p.1) (h2 : WF p.2) : WF (moveOne p).1 ∧ WF (moveOne p).2 := by
  obtain ⟨a, b⟩ := p
  cases a with
  | leaf es => exact ⟨h1, h2⟩
  | node pe pgt =>
    cases b with
    | leaf es => exact ⟨h1, h2⟩
    | node qe qd =>
      cases hlast : pe.getLast? with
      | none =>
        have heq : moveOne (BTree.node pe pgt, BTree.node qe qd)
            = (BTree.node pe pgt, BTree.node qe qd) := by
          simp only [moveOne]
          rw [hlast]
        rw [heq]
        exact ⟨h1, h2⟩
      | some me =>
        cases h1 with
        | node _ _ hkeys1 hch1 hgt1 =>
        cases h2 with
        | node _ _ hkeys2 hch2 hgt2 =>
        have hme : me ∈ pe := List.mem_of_mem_getLast? hlast
        have hppe : pe.dropLast ++ [me] = pe := List.dropLast_append_getLast? me hlast
        have heq : moveOne (BTree.node pe pgt, BTree.node qe qd)
            = (BTree.node pe.dropLast me.2,
               BTree.node
                 (((minLeafKey (match qe with
                     | [] => qd
                     | (_, lt) :: _ => lt)).getD default, pgt) :: qe) qd) := by
          simp only [moveOne]
          rw [hlast]
        rw [heq]
        constructor
        · -- the previous parent keeps its earlier entries; its gtChild is
          -- the popped entry's ltChild, which was exactly that entry's
          -- greater-than-or-equal target's sibling position
          refine WF.node _ _ ?_ (fun x hx => hch1 x (List.dropLast_subset _ hx))
            (hch1 me hme)
          intro j x hx
          have hjlt : j < pe.dropLast.length := lt_length_of_drop_head? hx
          have hio : (pe.drop j).head? = some x := by
            rw [← hppe, List.drop_append_of_le_length (by omega)]
            exact head?_append_of_some hx
          have horig := hkeys1 j x hio
          have htar : routeTarget pe.dropLast me.2 j = routeTarget pe pgt j := by
            unfold routeTarget
            conv_rhs => rw [← hppe]
            rw [List.drop_append_of_le_length (by omega)]
            cases hA : (pe.dropLast.drop (j + 1)).head? with
            | some y =>
              rw [head?_append_of_some hA]
              simp
            | none =>
              rw [List.head?_eq_none_iff.mp hA]
              simp
          rw [htar]
          exact horig
        · -- the under-full parent gains the moved entry at the front,
          -- re-keyed with its first child's leftmost-leaf first key
          refine WF.node _ _ ?_ ?_ hgt2
          · intro j x hx
            cases j with
            | zero =>
              cases qe with
              | nil =>
                have hx' : x = ((minLeafKey qd).getD default, pgt) := by
                  have h0 : ((minLeafKey qd).getD default, pgt) = x := by simpa using hx
                  exact h0.symm
                obtain ⟨k, hk⟩ := WF_minLeafKey_isSome hgt2
                have htar : routeTarget [((minLeafKey qd).getD default, pgt)] qd 0 = qd := by
                  unfold routeTarget
                  simp
                show some x.1 = minLeafKey (routeTarget
                  [((minLeafKey qd).getD default, pgt)] qd 0)
                rw [htar, hx', hk]
                simp
              | cons q0 qrest =>
                obtain ⟨k0, lt0⟩ := q0
                have hx' : x = ((minLeafKey lt0).getD default, pgt) := by
                  have h0 : ((minLeafKey lt0).getD default, pgt) = x := by simpa using hx
                  exact h0.symm
                have hlt0WF : WF lt0 := hch2 (k0, lt0) (by simp)
                obtain ⟨k, hk⟩ := WF_minLeafKey_isSome hlt0WF
                have htar : routeTarget (((minLeafKey lt0).getD default, pgt)
                    :: (k0, lt0) :: qrest) qd 0 = lt0 := by
                  unfold routeTarget
                  simp
                show some x.1 = minLeafKey (routeTarget (((minLeafKey lt0).getD default, pgt)
                  :: (k0, lt0) :: qrest) qd 0)
                rw [htar, hx', hk]
                simp
            | succ j =>
              have hx' : ((qe.drop j).head? = some x) := by simpa using hx
              have htar : routeTarget (((minLeafKey (match qe with
                  | [] => qd
                  | (_, lt) :: _ => lt)).getD default, pgt) :: qe) qd (j + 1)
                  = routeTarget qe qd j := by
                unfold routeTarget
                rw [List.drop_succ_cons]
              rw [htar]
              exact hkeys2 j x hx'
          · intro x hx
            rcases List.mem_cons.mp hx with h | h
            · rw [h]
              exact hgt1
            · exact hch2 x h

theorem iterMove_WF {K V : Type} [LinearOrder K] [Inhabited K] (m : Nat)
    (p : BTree K V × BTree K V) (h1 : WF p.1) (h2 : WF p.2) :
    WF (iterMove m p).1 ∧ WF (iterMove m p).2 := by
  induction m generalizing p with
  | zero => exact ⟨h1, h2⟩
  | succ m ih =>
    obtain ⟨ha, hb⟩ := moveOne_WF p h1 h2
    exact ih (moveOne p) ha hb

theorem rebalanceLevel_WF {K V : Type} [LinearOrder K] [Inhabited K]
    (minParentEntries : Nat) (nodes : List (BTree K V)) (h : ∀ t ∈ nodes, WF t) :
    ∀ t ∈ rebalanceLevel minParentEntries nodes, WF t := by
  unfold rebalanceLevel
  by_cases hlen : nodes.length ≤ 1
  · simpa [hlen] using h
  · simp only [hlen, if_false]
    split
    · intro t ht
      have hlast : ∃ x, nodes.getLast? = some x := by
        cases hx : nodes.getLast? with
        | none =>
          rw [List.getLast?_eq_none_iff] at hx
          rw [hx] at hlen
          simp at hlen
        | some x => exact ⟨x, rfl⟩
      obtain ⟨parent, hparent⟩ := hlast
      have hparentWF : WF parent := h parent (List.mem_of_mem_getLast? hparent)
      have hprev : ∃ x, nodes.dropLast.getLast? = some x := by
        cases hx : nodes.dropLast.getLast? with
        | none =>
          rw [List.getLast?_eq_none_iff] at hx
          have : nodes.dropLast.length = 0 := by rw [hx]; rfl
          rw [List.length_dropLast] at this
          omega
        | some x => exact ⟨x, rfl⟩
      obtain ⟨prev, hprevEq⟩ := hprev
      have hprevWF : WF prev :=
        h prev (List.dropLast_subset _ (List.mem_of_mem_getLast? hprevEq))
      rcases List.mem_append.mp ht with h' | h'
      · exact h t (List.dropLast_subset _ (List.dropLast_subset _ h'))
      · have hpair := iterMove_WF (minParentEntries
          - nodeEntriesCount ((nodes.getLast?).getD (.leaf [])))
          (((nodes.dropLast.getLast?).getD (.leaf [])),
            ((nodes.getLast?).getD (.leaf []))) (by rw [hprevEq]; exact hprevWF)
          (by rw [hparent]; exact hparentWF)
        rcases List.mem_cons.mp h' with h'' | h''
        · rw [h'']
          exact hpair.1
        · rcases List.mem_cons.mp h'' with h3 | h3
          · rw [h3]
            exact hpair.2
          · exact absurd h3 (List.not_mem_nil t)
    · exact h

theorem rebalanceLevel_ne_nil {K V : Type} [Inhabited K] (minParentEntries : Nat)
    (nodes : List (BTree K V)) (h : nodes ≠ []) :
    rebalanceLevel minParentEntries nodes ≠ [] := by
  unfold rebalanceLevel
  by_cases hlen : nodes.length ≤ 1
  · simpa [hlen] using h
  · simp only [hlen, if_false]
    split
    · simp
    · exact h

theorem chunks_ne_nil {α : Type} (n : Nat) (l : List α) (h : l ≠ []) :
    chunks n l ≠ [] := by
  cases l with
  | nil => exact absurd rfl h
  | cons a t =>
    cases n with
    | zero => simp [chunks]
    | succ m => simp [chunks]

theorem mem_chunks_spec {α : Type} (n : Nat) (l : List α) :
    ∀ g ∈ chunks n l, g ≠ [] ∧ g.Sublist l := by
  induction n, l using chunks.induct with
  | case1 n => simp [chunks]
  | case2 l hne =>
    intro g hg
    cases l with
    | nil => exact absurd rfl hne
    | cons a t =>
      simp only [chunks, List.mem_singleton] at hg
      subst hg
      exact ⟨by simp, List.Sublist.refl _⟩
  | case3 n a l ih =>
    intro g hg
    simp only [chunks, List.mem_cons] at hg
    rcases hg with h | h
    · subst h
      exact ⟨by simp, List.take_sublist _ _⟩
    · obtain ⟨hne, hsub⟩ := ih g h
      exact ⟨hne, hsub.trans (List.drop_sublist _ _)⟩

theorem buildLevel_WF {K V : Type} [LinearOrder K] [Inhabited K]
    (parentConnections minParentEntries : Nat) (children : List (BTree K V))
    (hne : children ≠ []) (h : ∀ t ∈ children, WF t) :
    (∀ t ∈ buildLevel parentConnections minParentEntries children, WF t) ∧
      buildLevel parentConnections minParentEntries children ≠ [] := by
  unfold buildLevel
  constructor
  · apply rebalanceLevel_WF
    intro t ht
    obtain ⟨g, hg, hgt⟩ := List.mem_map.mp ht
    obtain ⟨hgne, hgsub⟩ := mem_chunks_spec parentConnections children g hg
    rw [← hgt]
    exact mkNode_WF g hgne (fun x hx => h x (hgsub.subset hx))
  · apply rebalanceLevel_ne_nil
    intro hnil
    rw [List.map_eq_nil_iff] at hnil
    exact chunks_ne_nil parentConnections children hne hnil

theorem buildLevels_WF {K V : Type} [LinearOrder K] [Inhabited K]
    (parentConnections minParentEntries : Nat) (fuel : Nat)
    (children : List (BTree K V)) (hne : children ≠ [])
    (h : ∀ t ∈ children, WF t) :
    WF (buildLevels parentConnections minParentEntries fuel children) := by
  induction fuel generalizing children with
  | zero =>
    obtain ⟨a, t, ha⟩ := List.exists_cons_of_ne_nil hne
    rw [buildLevels, ha]
    exact h a (ha ▸ List.mem_cons_self a t)
  | succ fuel ih =>
    rw [buildLevels]
    obtain ⟨hall, hpne⟩ := buildLevel_WF parentConnections minParentEntries children hne h
    by_cases h1 : (buildLevel parentConnections minParentEntries children).length = 1
    · simp only [h1, if_true]
      obtain ⟨a, t, ha⟩ :=
        List.exists_cons_of_ne_nil hpne
      rw [ha]
      exact hall a (ha ▸ List.mem_cons_self a t)
    · simp only [h1, if_false]
      exact ih _ hpne hall

theorem AllRouted_of_leaves_headD {K V : Type} [LinearOrder K] (ls : List (BTree K V))
    (h : ∀ t ∈ ls, ∃ es, t = .leaf es) : AllRouted (ls.headD (.leaf [])) := by
  cases ls with
  | nil => exact AllRouted.leaf []
  | cons a t =>
    obtain ⟨es, hes⟩ := h a (List.mem_cons_self a t)
    rw [List.headD_cons, hes]
    exact AllRouted.leaf es

/-- C1. In the tree returned by `BPlusTreeBuilder.create`, for every
multiset of entries and every valid `maxEntries` (at least 2, so the
builder never empties an internal node while moving entries), every
routing key of every internal node equals the smallest key of the
leftmost leaf of the subtree the key routes to on the
greater-than-or-equal side — including after the rebalance step that
moves entries from the previous sibling parent when the last parent has
fewer than `floor(max_entries / 2)` entries. -/
theorem create_routing_keys {K V : Type} [LinearOrder K] [Inhabited K]
    (list : List (K × V)) (maxEntries fillFactor : Nat) (hM : 2 ≤ maxEntries) :
    AllRouted (create list maxEntries fillFactor) := by
  have htrans : ∀ a b c : K × V, (fun a b : K × V => decide (a.1 ≤ b.1)) a b = true →
      (fun a b : K × V => decide (a.1 ≤ b.1)) b c = true →
      (fun a b : K × V => decide (a.1 ≤ b.1)) a c = true := by
    intro a b c hab hbc
    simp only [decide_eq_true_eq] at *
    exact le_trans hab hbc
  have htotal : ∀ a b : K × V, ((fun a b : K × V => decide (a.1 ≤ b.1)) a b
      || (fun a b : K × V => decide (a.1 ≤ b.1)) b a) = true := by
    intro a b
    simp [le_total]
  unfold create
  dsimp only
  set L := list.mergeSort (fun a b : K × V => decide (a.1 ≤ b.1)) with hL
  set epl := max 3 (maxEntries * fillFactor / 100) with hepl
  have hLpw : (L.map Prod.fst).Pairwise (· ≤ ·) := by
    have h1 := List.sorted_mergeSort htrans htotal list
    rw [← hL] at h1
    rw [List.pairwise_map]
    exact h1.imp (fun h => by simpa using h)
  split
  · -- a single leaf becomes the root: no internal nodes
    split
    · exact AllRouted.leaf []
    · apply AllRouted_of_leaves_headD
      intro t ht
      obtain ⟨g, hg, hgt⟩ := List.mem_map.mp ht
      exact ⟨g, hgt.symm⟩
  · -- at least two leaves: the level loop builds well-formed nodes
    rename_i h1
    apply WF_allRouted
    have hlen : ¬ L.length = 0 := by
      intro h0
      apply h1
      rw [h0]
      have : (0 + epl - 1) / epl = 0 := Nat.div_eq_of_lt (by omega)
      rw [this]
      simp
    rw [if_neg hlen]
    apply buildLevels_WF
    · intro hnil
      rw [List.map_eq_nil_iff] at hnil
      exact chunks_ne_nil epl L (fun h => hlen (by rw [h]; rfl)) hnil
    · intro t ht
      obtain ⟨g, hg, hgt⟩ := List.mem_map.mp ht
      obtain ⟨hgne, hgsub⟩ := mem_chunks_spec epl L g hg
      rw [← hgt]
      exact WF.leaf g hgne (List.Pairwise.sublist (hgsub.map Prod.fst) hLpw)

/-- Witness for C1: thirty integer entries at `maxEntries = 2`
(`fillFactor = 50`), which yields ten leaves, a four-node level whose
last parent triggers the rebalance, a two-node level that triggers it
again, and a root. -/
theorem create_routing_keys_witness :
    2 ≤ 2 ∧ AllRouted (create ((List.range 30).map (fun i => ((i : Int), i))) 2 50) :=
  ⟨by decide,
    create_routing_keys ((List.range 30).map (fun i => ((i : Int), i))) 2 50 (by decide)⟩

end AceBase
